import Mathlib

/-!
# Intel HEX decoder (`src/c/intelhex.c`): shallow embedding and verified properties

Bytes and characters are natural numbers (`uint8_t` values are `< 256`), `uint16_t`
counters are reduced modulo `65536` where the C code can wrap.  A C array is a list whose
length is the size of the array; an access outside the list is undefined behaviour and is
reported as `Exec.undefined`.  Memory that the C code leaves uninitialised (the block returned
by `malloc`, the automatic `Record record;`, the automatic `line` buffer) is passed in as an
arbitrary parameter.  `malloc`/`realloc` are assumed to succeed.
-/

namespace IntelHex

/-! ## Constants -/

def RECORD_START_CODE : Nat := 58 -- ':'

def MAX_BYTE_COUNT : Nat := 255

def HEX_LINE_MAX_LENGTH : Nat := 521

/-! ## Outcome of running a piece of C code -/

/-- Outcome of a modelled C function: a normal return, an access outside an object
(undefined behaviour), or exhaustion of the loop budget of the model. -/
inductive Exec (α : Type) where
  | ok (a : α)
  | undefined
  | timeout
  deriving DecidableEq

/-! ## Data model -/

/-- The C `struct Record`: `data` is the array `uint8_t data[255]`. -/
structure Record where
  len : Nat
  addr : Nat
  type : Nat
  data : List Nat
  check : Nat
  deriving DecidableEq

/-! ## Byte decoder -/

/-- C function `uint8_t hex2dec(const char ch)`; `ch` is the character code (a `char` that is
negative on the platform is one of the codes from 128 up, outside every range tested). -/
def hex2dec (ch : Nat) : Nat :=
  if 48 ≤ ch ∧ ch ≤ 57 then (ch - 48) % 256
  else if 65 ≤ ch ∧ ch ≤ 90 then (ch - 65 + 10) % 256
  else if 97 ≤ ch ∧ ch ≤ 122 then (ch - 97 + 10) % 256
  else 16

/-- C function `bool get_byte(line, start, byte, readed_bytes)`.  `array` and `j` stand for the
pointer `byte = array + j`; the result is the return value, the array and `*readed_bytes`. -/
def get_byte (line : List Nat) (start : Nat) (array : List Nat) (j : Nat) (readed_bytes : Nat) :
    Exec (Bool × List Nat × Nat) :=
  match line.get? start, line.get? (start + 1) with
  | some c1, some c2 =>
    let hex1 := hex2dec c1
    let hex2 := hex2dec c2
    if hex1 = 16 ∨ hex2 = 16 then .ok (false, array, readed_bytes)
    else if j < array.length then
      .ok (true, array.set j (((hex1 <<< 4) + hex2) % 256), (readed_bytes + 1) % 65536)
    else .undefined
  | _, _ => .undefined

/-! ## Line tokenizer -/

/-- The `while` loop of `convert_hex_line_to_bytes`: `i` indexes the line, `j` the byte array.
The first argument bounds the number of evaluations of the loop condition. -/
def convert_loop (line : List Nat) :
    Nat → Nat → Nat → List Nat → Nat → Exec (Bool × List Nat × Nat)
  | 0, _, _, _, _ => .timeout
  | fuel + 1, i, j, array, readed_bytes =>
    match line.get? i with
    | none => .undefined
    | some c =>
      if c ≠ 0 ∧ c ≠ 10 then
        match get_byte line (i % 65536) array j readed_bytes with
        | .ok (true, array1, readed1) => convert_loop line fuel (i + 2) (j + 1) array1 readed1
        | .ok (false, array1, readed1) => .ok (false, array1, readed1)
        | .undefined => .undefined
        | .timeout => .timeout
      else .ok (true, array, readed_bytes)

/-- C function `bool convert_hex_line_to_bytes(line, array, readed_bytes)`: the result is the
return value, the array and `*readed_bytes`.  The loop condition is evaluated at most
`line.length + 1` times, because `i` grows and every evaluation reads `line[i]`. -/
def convert_hex_line_to_bytes (line : List Nat) (array : List Nat) (readed_bytes : Nat) :
    Exec (Bool × List Nat × Nat) :=
  match line.get? 0 with
  | none => .undefined
  | some c0 =>
    if c0 ≠ RECORD_START_CODE then .ok (false, array, readed_bytes)
    else convert_loop line (line.length + 1) 1 0 array readed_bytes

/-! ## Record parser -/

/-- The `for (int i = 4; i < size - 1; ++i) record->data[j++] = bytes_array[i];` loop of
`parse_intel_hex_line`; the first argument is the number of iterations left,
`size - 1 - i`. -/
def copy_loop (bytes_array : List Nat) : Nat → Nat → Nat → List Nat → Exec (List Nat)
  | 0, _, _, data => .ok data
  | n + 1, i, j, data =>
    match bytes_array.get? i with
    | none => .undefined
    | some b =>
      if j < data.length then copy_loop bytes_array n (i + 1) (j + 1) (data.set j b)
      else .undefined

/-- The block of `n` bytes returned by `malloc(n)`; `heap` gives its indeterminate contents. -/
def malloc_bytes (n : Nat) (heap : Nat → Nat) : List Nat :=
  (List.range n).map (fun k => heap k % 256)

/-- C function `bool parse_intel_hex_line(line, record)`.  `heap` gives the indeterminate
contents of the block of `HEX_LINE_MAX_LENGTH / 2` bytes returned by `malloc`; `record` is the
value of `*record` on entry, and the result carries its value on return. -/
def parse_intel_hex_line (line : List Nat) (heap : Nat → Nat) (record : Record) :
    Exec (Bool × Record) :=
  let max_bytes := HEX_LINE_MAX_LENGTH / 2
  let bytes_array := malloc_bytes max_bytes heap
  match convert_hex_line_to_bytes line bytes_array 0 with
  | .undefined => .undefined
  | .timeout => .timeout
  | .ok (false, _, _) => .ok (false, record)
  | .ok (true, bytes_array, size) =>
    if size = 0 then .undefined -- reads bytes_array[-1]
    else
      match bytes_array.get? 0, bytes_array.get? 1, bytes_array.get? 2, bytes_array.get? 3,
          bytes_array.get? (size - 1) with
      | some b0, some b1, some b2, some b3, some bl =>
        match copy_loop bytes_array (size - 1 - 4) 4 0 record.data with
        | .ok data =>
          .ok (true, { len := b0, addr := ((b1 <<< 8) ||| b2) % 65536, type := b3,
                       data := data, check := bl })
        | .undefined => .undefined
        | .timeout => .timeout
      | _, _, _, _, _ => .undefined

/-! ## Checksum validator -/

/-- C function `bool validate_record(const Record record)`.  The loop bound `record.len` is
fixed on entry, so the `for` loop is a fold over `0 .. record.len - 1` (indices inside
`data[255]`, since `len ≤ 255`); `~sum + 0x01` converted to `uint8_t` is
`(255 - sum + 1) % 256`. -/
def validate_record (record : Record) : Bool :=
  let aaaa := record.addr
  let high_addr := (aaaa >>> 8) % 256
  let low_addr := (aaaa &&& 0x00ff) % 256
  let sum0 := (record.len + high_addr + low_addr + record.type) % 256
  let sum := (List.range record.len).foldl (fun sum i => (sum + record.data.getD i 0) % 256) sum0
  let two_complement := (255 - sum + 0x01) % 256
  two_complement == record.check

/-- C function `bool is_data_record(Record record)`. -/
def is_data_record (record : Record) : Bool :=
  record.type == 0

/-! ## Record store and driving loop -/

/-- The C `struct IntelHexArray`.  `records` is the allocated array, one entry per slot; a
slot that has never been written is `none`. -/
structure IntelHexArray where
  records : List (Option Record)
  size : Nat
  capacity : Nat
  deriving DecidableEq

/-- Outcome of `convert_hex_file_to_array`: it returns the store, or it prints
`ERROR line <line_no>` and calls `exit(1)` (the store at that moment is kept for reference),
or it has undefined behaviour, or the loop budget of the model ran out. -/
inductive Run where
  | returned (obj : IntelHexArray)
  | exited (line_no : Nat) (obj : IntelHexArray)
  | undefined
  | timeout
  deriving DecidableEq

/-- Characters consumed by one call of the C library function `fgets` that has room for `k`
characters: it stops after a newline, at the end of the stream, or when the room is used up.
The result is the characters read and the rest of the stream. -/
def fgets_take : Nat → List Nat → List Nat × List Nat
  | 0, file => ([], file)
  | _ + 1, [] => ([], [])
  | k + 1, c :: file =>
    if c = 10 then ([c], file)
    else ((c :: (fgets_take k file).1), (fgets_take k file).2)

/-- The C library function `fgets(line, n, file)`: `none` is the `NULL` result at end of
stream; otherwise the characters read and a terminating NUL overwrite the start of `line`. -/
def fgets (line : List Nat) (n : Nat) (file : List Nat) : Option (List Nat × List Nat) :=
  match fgets_take (n - 1) file with
  | ([], _) => none
  | (cs, rest) => some (cs ++ 0 :: line.drop (cs.length + 1), rest)

/-- The C library function `realloc` on the record array: the old entries that fit are kept,
new slots are unwritten. -/
def realloc (records : List (Option Record)) (len : Nat) : List (Option Record) :=
  records.take len ++ List.replicate (len - records.length) none

/-- The `while (fgets(...))` loop of `convert_hex_file_to_array`.  The first argument bounds
the number of calls of `fgets`, the second counts the iterations; `heap k` and `stack k` are
the indeterminate contents of the `malloc` block and of `Record record;` in iteration `k`. -/
def read_loop (heap : Nat → Nat → Nat) (stack : Nat → Record) :
    Nat → Nat → List Nat → List Nat → List (Option Record) → Nat → Nat → Run
  | 0, _, _, _, _, _, _ => .timeout
  | fuel + 1, k, file, line, records, len, next =>
    match fgets line HEX_LINE_MAX_LENGTH file with
    | none => .returned { records := records, size := next, capacity := len }
    | some (line1, file1) =>
      match parse_intel_hex_line line1 (heap k) (stack k) with
      | .undefined => .undefined
      | .timeout => .timeout
      | .ok (false, _) =>
        .exited (next + 1) { records := records, size := next, capacity := len }
      | .ok (true, record) =>
        if next < records.length then
          let records1 := records.set next (some record)
          let next1 := (next + 1) % 65536
          if next1 ≥ len then
            let len1 := (len + 10) % 65536
            read_loop heap stack fuel (k + 1) file1 line1 (realloc records1 len1) len1 next1
          else read_loop heap stack fuel (k + 1) file1 line1 records1 len next1
        else .undefined

/-- C function `IntelHexArray convert_hex_file_to_array(FILE *file)`; `file` is the unread
content of the stream and `line0` the indeterminate initial content of the buffer `line`.
Every successful `fgets` consumes at least one character, so `file.length + 1` calls
suffice. -/
def convert_hex_file_to_array (file : List Nat) (line0 : Nat → Nat) (heap : Nat → Nat → Nat)
    (stack : Nat → Record) : Run :=
  let len := 10
  let next := 0
  let records : List (Option Record) := List.replicate len none
  let line := (List.range HEX_LINE_MAX_LENGTH).map (fun k => line0 k % 256)
  read_loop heap stack (file.length + 1) 0 file line records len next

/-! ## Auxiliary definitions used in the statements -/

/-- Bytes that the tokenizer computes from a run of accepted character pairs:
`(hex1 << 4) + hex2` truncated to `uint8_t`, pair by pair. -/
def pair_bytes : List Nat → List Nat
  | c1 :: c2 :: cs => ((hex2dec c1 <<< 4) + hex2dec c2) % 256 :: pair_bytes cs
  | _ => []

/-- The characters that write the hexadecimal digit `v` (`0 ≤ v ≤ 15`): the decimal digit, or
the letter in upper or in lower case. -/
def hex_digit_chars (v : Nat) : List Nat :=
  if v < 10 then [48 + v]
  else if v < 16 then [65 + (v - 10), 97 + (v - 10)]
  else []

/-- Relation `hex_text cs bs`: the characters `cs` write the bytes `bs`, two hexadecimal digits per
byte, high digit first, every digit in either case. -/
def hex_text : List Nat → List Nat → Prop
  | c1 :: c2 :: cs, b :: bs =>
    c1 ∈ hex_digit_chars (b / 16) ∧ c2 ∈ hex_digit_chars (b % 16) ∧ hex_text cs bs
  | [], [] => True
  | _, _ => False

/-- The character `c` is a hexadecimal digit: `0-9`, `A-F` or `a-f`. -/
def is_hex_digit (c : Nat) : Bool :=
  (48 ≤ c && c ≤ 57) || (65 ≤ c && c ≤ 70) || (97 ≤ c && c ≤ 102)

/-- The sum that the checksum protects: length, high and low address byte, type and the first
`len` payload bytes. -/
def record_sum (r : Record) : Nat :=
  r.len + r.addr / 256 % 256 + r.addr % 256 + r.type
    + ((List.range r.len).map (fun i => r.data.getD i 0)).sum

/-- The expected checksum: the negation modulo 256 of `record_sum` taken modulo 256. -/
def expected_checksum (r : Record) : Nat :=
  (256 - record_sum r % 256) % 256

/-- The record of the line `:10246200464C5549442050524F46494C4500464C33`, with the unused
part of `data` zeroed. -/
def sample_record : Record :=
  { len := 0x10, addr := 0x2462, type := 0x00,
    data := [0x46, 0x4C, 0x55, 0x49, 0x44, 0x20, 0x50, 0x52, 0x4F, 0x46, 0x49, 0x4C, 0x45, 0x00,
      0x46, 0x4C] ++ List.replicate 239 0,
    check := 0x33 }

/-- Characters of `:10246200464C5549442050524F46494C4500464C33` after the marker. -/
def sample_text : List Nat :=
  [49, 48, 50, 52, 54, 50, 48, 48, 52, 54, 52, 67, 53, 53, 52, 57, 52, 52, 50, 48, 53, 48, 53, 50,
    52, 70, 52, 54, 52, 57, 52, 67, 52, 53, 48, 48, 52, 54, 52, 67, 51, 51]

/-- A `Record` object whose bytes are all zero. -/
def zero_record : Record :=
  { len := 0, addr := 0, type := 0, data := List.replicate 255 0, check := 0 }

/-- Capacity that the growth policy (start at 10, add 10 when full) has reached after `n`
appends, as long as the 16-bit counters have not wrapped. -/
def cap_of (n : Nat) : Nat :=
  10 * (n / 10 + 1)

/-- The record array that holds the records `stored`, in order, in its first slots and has
capacity `cap_of stored.length`. -/
def store_of (stored : List Record) : List (Option Record) :=
  stored.map some ++ List.replicate (cap_of stored.length - stored.length) none

/-- Content of a stream made of the given lines, each followed by a newline. -/
def lines_text : List (List Nat) → List Nat
  | [] => []
  | l :: ls => l ++ 10 :: lines_text ls

/-- In iteration `k` the line `chars` is read whole by one `fgets` (no newline inside, at most
519 characters) and is parsed successfully into `r`, whatever the line buffer holds after the
terminating NUL. -/
def good_line (heap : Nat → Nat → Nat) (stack : Nat → Record) (k : Nat) (chars : List Nat)
    (r : Record) : Prop :=
  (∀ c ∈ chars, c ≠ 10) ∧ chars.length ≤ 519 ∧
    ∀ stale, parse_intel_hex_line (chars ++ 10 :: 0 :: stale) (heap k) (stack k) = .ok (true, r)

/-- Every line of the list, paired with its record, is a `good_line` in its iteration, the
first one in iteration `k`. -/
def good_lines (heap : Nat → Nat → Nat) (stack : Nat → Record) :
    Nat → List (List Nat × Record) → Prop
  | _, [] => True
  | k, (l, r) :: rest => good_line heap stack k l r ∧ good_lines heap stack (k + 1) rest

/-- Characters of the end-of-file record line `:00000001FF`. -/
def eof_chars : List Nat :=
  [58, 48, 48, 48, 48, 48, 48, 48, 49, 70, 70]

/-- The record of the line `:00000001FF` when the unused `data` bytes are zero. -/
def eof_record : Record :=
  { len := 0, addr := 0, type := 1, data := List.replicate 255 0, check := 255 }

/-- Characters of the line `:FF000000`, 255 times `00`, `0c`: the encoding of a record with
255 payload bytes (all zero) at address 0 whose checksum digits are `0` and `c`. -/
def max_record_line (c : Nat) : List Nat :=
  [58, 70, 70, 48, 48, 48, 48, 48, 48] ++ List.replicate 510 48 ++ [48, c]

/-- The numeric value of a character read as a hexadecimal digit, without regard to case;
16 stands for "not a hexadecimal digit". -/
def hex_value (c : Nat) : Nat :=
  if 48 ≤ c ∧ c ≤ 57 then c - 48
  else if 65 ≤ c ∧ c ≤ 70 then c - 65 + 10
  else if 97 ≤ c ∧ c ≤ 102 then c - 97 + 10
  else 16

/-- Upper-case form of a character: `a-z` become `A-Z`. -/
def to_upper (c : Nat) : Nat :=
  if 97 ≤ c ∧ c ≤ 122 then c - 32 else c

/-- Lower-case form of a character: `A-Z` become `a-z`. -/
def to_lower (c : Nat) : Nat :=
  if 65 ≤ c ∧ c ≤ 90 then c + 32 else c

/-- Value ranges that the C types give to the fields of a `Record`. -/
def record_wf (r : Record) : Prop :=
  r.len < 256 ∧ r.addr < 65536 ∧ r.type < 256 ∧ r.data.length = 255 ∧ (∀ b ∈ r.data, b < 256) ∧
    r.check < 256

/-- The content of the automatic buffer `line` when `convert_hex_file_to_array` starts:
521 indeterminate bytes. -/
def initial_line (line0 : Nat → Nat) : List Nat :=
  (List.range HEX_LINE_MAX_LENGTH).map (fun k => line0 k % 256)

/-- Relation `reads_ok heap stack k file line rs file2 line2`: starting in iteration `k` with the
unread stream `file` and the buffer `line`, the next `rs.length` lines delivered by `fgets`
are all accepted by `parse_intel_hex_line`, their records are `rs` in order, and afterwards
the unread stream is `file2` and the buffer is `line2`. -/
def reads_ok (heap : Nat → Nat → Nat) (stack : Nat → Record) :
    Nat → List Nat → List Nat → List Record → List Nat → List Nat → Prop
  | _, file, line, [], file2, line2 => file2 = file ∧ line2 = line
  | k, file, line, r :: rs, file2, line2 =>
    ∃ line1 file1, fgets line HEX_LINE_MAX_LENGTH file = some (line1, file1) ∧
      parse_intel_hex_line line1 (heap k) (stack k) = .ok (true, r) ∧
      reads_ok heap stack (k + 1) file1 line1 rs file2 line2

/-! ## Byte decoder and tokenizer lemmas -/

theorem hex2dec_nul : hex2dec 0 = 16 := by decide

theorem hex2dec_newline : hex2dec 10 = 16 := by decide

theorem ne_terminator_of_hex2dec {c : Nat} (h : hex2dec c ≠ 16) : c ≠ 0 ∧ c ≠ 10 := by
  constructor
  · rintro rfl; exact h hex2dec_nul
  · rintro rfl; exact h hex2dec_newline

theorem get_byte_accept (line : List Nat) (start j rb c1 c2 : Nat) (array : List Nat)
    (h1 : line.get? start = some c1) (h2 : line.get? (start + 1) = some c2)
    (a1 : hex2dec c1 ≠ 16) (a2 : hex2dec c2 ≠ 16) (hj : j < array.length) :
    get_byte line start array j rb
      = .ok (true, array.set j (((hex2dec c1 <<< 4) + hex2dec c2) % 256), (rb + 1) % 65536) := by
  simp only [get_byte, h1, h2]
  simp [a1, a2, hj]

theorem get_byte_reject (line : List Nat) (start j rb c1 c2 : Nat) (array : List Nat)
    (h1 : line.get? start = some c1) (h2 : line.get? (start + 1) = some c2)
    (a : hex2dec c1 = 16 ∨ hex2dec c2 = 16) :
    get_byte line start array j rb = .ok (false, array, rb) := by
  simp only [get_byte, h1, h2]
  simp [a]

theorem pair_bytes_length : ∀ (n : Nat) (cs : List Nat), cs.length = 2 * n →
    (pair_bytes cs).length = n
  | 0, cs, h => by
    have : cs = [] := List.length_eq_zero.mp (by omega)
    subst this; rfl
  | n + 1, [], h => by simp at h
  | n + 1, [_], h => by simp at h; omega
  | n + 1, c1 :: c2 :: cs, h => by
    have h2 : cs.length = 2 * n := by simp at h; omega
    simp [pair_bytes, pair_bytes_length n cs h2]

theorem get?_append_add (pre rest : List Nat) (k : Nat) :
    (pre ++ rest).get? (pre.length + k) = rest.get? k := by
  simp only [List.get?_eq_getElem?]
  rw [List.getElem?_append_right (Nat.le_add_right _ _)]
  simp

theorem splice_set (array : List Nat) (j b : Nat) (bs : List Nat) (n : Nat)
    (hj : j < array.length) :
    (array.set j b).take (j + 1) ++ bs ++ (array.set j b).drop (j + 1 + n)
      = array.take j ++ (b :: bs) ++ array.drop (j + (n + 1)) := by
  rw [List.drop_set_of_lt _ _ (by omega : j < j + 1 + n), List.set_eq_take_append_cons_drop,
    if_pos hj, show j + 1 + n = j + (n + 1) by omega]
  have hlen : (List.take j array).length = j := by simp; omega
  rw [List.take_append_eq_append_take, hlen]
  simp [List.take_of_length_le (Nat.le_of_eq hlen)]

/-- One pass over `n` accepted character pairs starting at index `pre.length` decodes them into
`array[j .. j+n)` and adds `n` to the byte count. -/
theorem convert_loop_pairs (post : List Nat) : ∀ (n : Nat) (cs pre : List Nat)
    (fuel j rb : Nat) (array : List Nat),
    cs.length = 2 * n → (∀ c ∈ cs, hex2dec c ≠ 16) → pre.length + cs.length ≤ 65536 →
    j + n ≤ array.length → rb < 65536 →
    convert_loop (pre ++ cs ++ post) (fuel + n) pre.length j array rb
      = convert_loop (pre ++ cs ++ post) fuel (pre.length + cs.length) (j + n)
          (array.take j ++ pair_bytes cs ++ array.drop (j + n)) ((rb + n) % 65536)
  | 0, cs, pre, fuel, j, rb, array, hlen, _, _, _, hrb => by
    have : cs = [] := List.length_eq_zero.mp (by omega)
    subst this
    simp [pair_bytes, Nat.mod_eq_of_lt hrb]
  | n + 1, [], pre, fuel, j, rb, array, hlen, _, _, _, hrb => by simp at hlen
  | n + 1, [_], pre, fuel, j, rb, array, hlen, _, _, _, hrb => by simp at hlen; omega
  | n + 1, c1 :: c2 :: cs, pre, fuel, j, rb, array, hlen, hacc, hidx, hcap, hrb => by
    have hlen2 : cs.length = 2 * n := by simp at hlen; omega
    have a1 : hex2dec c1 ≠ 16 := hacc c1 (by simp)
    have a2 : hex2dec c2 ≠ 16 := hacc c2 (by simp)
    have hacc2 : ∀ c ∈ cs, hex2dec c ≠ 16 := fun c hc => hacc c (by simp [hc])
    simp only [List.length_cons] at hidx
    have g1 : (pre ++ c1 :: c2 :: cs ++ post).get? pre.length = some c1 := by
      have h := get?_append_add pre (c1 :: c2 :: cs ++ post) 0
      simpa using h
    have g2 : (pre ++ c1 :: c2 :: cs ++ post).get? (pre.length + 1) = some c2 := by
      have h := get?_append_add pre (c1 :: c2 :: cs ++ post) 1
      simpa using h
    have hmod : pre.length % 65536 = pre.length := Nat.mod_eq_of_lt (by omega)
    have hstep : convert_loop (pre ++ c1 :: c2 :: cs ++ post) (fuel + (n + 1)) pre.length j array rb
        = convert_loop (pre ++ c1 :: c2 :: cs ++ post) (fuel + n) (pre.length + 2) (j + 1)
            (array.set j (((hex2dec c1 <<< 4) + hex2dec c2) % 256)) ((rb + 1) % 65536) := by
      rw [show fuel + (n + 1) = (fuel + n) + 1 by omega]
      rw [convert_loop]
      simp only [g1, hmod]
      rw [get_byte_accept _ _ _ _ c1 c2 _ g1 g2 a1 a2 (by omega)]
      simp [(ne_terminator_of_hex2dec a1).1, (ne_terminator_of_hex2dec a1).2]
    have ih := convert_loop_pairs post n cs (pre ++ [c1, c2]) fuel (j + 1) ((rb + 1) % 65536)
      (array.set j (((hex2dec c1 <<< 4) + hex2dec c2) % 256)) hlen2 hacc2
      (by simp; omega) (by simp; omega) (Nat.mod_lt _ (by decide))
    have e1 : pre ++ [c1, c2] ++ cs ++ post = pre ++ c1 :: c2 :: cs ++ post := by simp
    rw [e1] at ih
    simp only [List.length_append, List.length_cons, List.length_nil] at ih
    rw [hstep, ih, splice_set array j _ (pair_bytes cs) n (by omega)]
    have e2 : pre.length + (0 + 1 + 1) + cs.length = pre.length + (cs.length + 1 + 1) := by omega
    have e3 : j + 1 + n = j + (n + 1) := by omega
    have e4 : ((rb + 1) % 65536 + n) % 65536 = (rb + (n + 1)) % 65536 := by omega
    rw [e2, e3, e4]
    rfl

theorem convert_hex_line_to_bytes_marker (line array : List Nat) (rb c0 : Nat)
    (h0 : line.get? 0 = some c0) (hc : c0 ≠ 58) :
    convert_hex_line_to_bytes line array rb = .ok (false, array, rb) := by
  simp only [convert_hex_line_to_bytes, h0]
  simp [RECORD_START_CODE, hc]

/-- A line made of the marker, `n` accepted pairs and a terminator (NUL or newline) is
tokenized into the `n` bytes of `pair_bytes`. -/
theorem convert_hex_line_to_bytes_accept (n : Nat) (cs post array : List Nat) (t rb : Nat)
    (hlen : cs.length = 2 * n) (hacc : ∀ c ∈ cs, hex2dec c ≠ 16) (ht : t = 0 ∨ t = 10)
    (hidx : cs.length < 65536) (hcap : n ≤ array.length) (hrb : rb < 65536) :
    convert_hex_line_to_bytes (58 :: cs ++ t :: post) array rb
      = .ok (true, pair_bytes cs ++ array.drop n, (rb + n) % 65536) := by
  have hl : (58 :: cs ++ t :: post).length + 1 = (cs.length + post.length + 2 - n + 1) + n := by
    simp; omega
  have hp := convert_loop_pairs (t :: post) n cs [58] (cs.length + post.length + 2 - n + 1) 0 rb
    array hlen hacc (by simp; omega) (by omega) hrb
  have g : ([58] ++ cs ++ t :: post).get? (1 + cs.length) = some t := by
    have h := get?_append_add ([58] ++ cs) (t :: post) 0
    simpa [Nat.add_comm] using h
  simp only [convert_hex_line_to_bytes, RECORD_START_CODE]
  rw [hl]
  simp only [List.get?, List.cons_append, List.singleton_append, List.length_singleton,
    Nat.zero_add, List.take_zero, List.nil_append] at hp g ⊢
  rw [hp, convert_loop]
  rw [g]
  rcases ht with rfl | rfl <;> simp

/-- A line whose first `n` pairs are accepted and whose next pair starts with a character
other than a terminator and contains a rejected character makes the tokenizer fail, after
`n` bytes have been written and counted. -/
theorem convert_hex_line_to_bytes_reject (n : Nat) (cs post array : List Nat) (d t rb : Nat)
    (hlen : cs.length = 2 * n) (hacc : ∀ c ∈ cs, hex2dec c ≠ 16) (hd : d ≠ 0 ∧ d ≠ 10)
    (hrej : hex2dec d = 16 ∨ hex2dec t = 16)
    (hidx : cs.length + 1 < 65536) (hcap : n ≤ array.length) (hrb : rb < 65536) :
    convert_hex_line_to_bytes (58 :: cs ++ d :: t :: post) array rb
      = .ok (false, pair_bytes cs ++ array.drop n, (rb + n) % 65536) := by
  have hl : (58 :: cs ++ d :: t :: post).length + 1
      = (cs.length + post.length + 3 - n + 1) + n := by
    simp; omega
  have hp := convert_loop_pairs (d :: t :: post) n cs [58] (cs.length + post.length + 3 - n + 1)
    0 rb array hlen hacc (by simp; omega) (by omega) hrb
  have g1 : ([58] ++ cs ++ d :: t :: post).get? (1 + cs.length) = some d := by
    have h := get?_append_add ([58] ++ cs) (d :: t :: post) 0
    simpa [Nat.add_comm] using h
  have g2 : ([58] ++ cs ++ d :: t :: post).get? (1 + cs.length + 1) = some t := by
    have h := get?_append_add ([58] ++ cs) (d :: t :: post) 1
    simpa [Nat.add_comm] using h
  simp only [convert_hex_line_to_bytes, RECORD_START_CODE]
  rw [hl]
  simp only [List.get?, List.cons_append, List.singleton_append, List.length_singleton,
    Nat.zero_add, List.take_zero, List.nil_append] at hp g1 g2 ⊢
  rw [hp, convert_loop]
  rw [g1, Nat.mod_eq_of_lt (by omega : 1 + cs.length < 65536),
    get_byte_reject _ _ _ _ d t _ g1 g2 hrej]
  simp [hd.1, hd.2]

theorem get_byte_no_timeout (line : List Nat) (start : Nat) (array : List Nat) (j rb : Nat) :
    get_byte line start array j rb ≠ .timeout := by
  unfold get_byte
  cases line.get? start with
  | none => simp
  | some c1 =>
    cases line.get? (start + 1) with
    | none => simp
    | some c2 =>
      simp only
      by_cases hr : hex2dec c1 = 16 ∨ hex2dec c2 = 16
      · rw [if_pos hr]; simp
      · rw [if_neg hr]
        by_cases hj : j < array.length
        · rw [if_pos hj]; simp
        · rw [if_neg hj]; simp

/-- The loop budget of the tokenizer is never exhausted when it exceeds the number of
characters left in the line. -/
theorem convert_loop_no_timeout (line : List Nat) : ∀ (fuel i j rb : Nat) (array : List Nat),
    line.length - i < fuel → convert_loop line fuel i j array rb ≠ .timeout
  | 0, i, j, rb, array, h => by omega
  | fuel + 1, i, j, rb, array, h => by
    rw [convert_loop]
    cases hg : line.get? i with
    | none => simp
    | some c =>
      have hi : i < line.length := by
        rw [List.get?_eq_getElem?] at hg
        exact (List.getElem?_eq_some_iff.mp hg).1
      simp only
      split_ifs
      · cases hb : get_byte line (i % 65536) array j rb with
        | undefined => simp
        | timeout => exact absurd hb (get_byte_no_timeout line _ array j rb)
        | ok res =>
          obtain ⟨b, a1, r1⟩ := res
          cases b
          · simp
          · simp only
            exact convert_loop_no_timeout line fuel (i + 2) (j + 1) r1 a1 (by omega)
      · simp

theorem convert_hex_line_to_bytes_no_timeout (line array : List Nat) (rb : Nat) :
    convert_hex_line_to_bytes line array rb ≠ .timeout := by
  unfold convert_hex_line_to_bytes
  split
  · simp
  · split_ifs
    · simp
    · exact convert_loop_no_timeout line _ 1 0 rb array (by omega)

/-! ## Record parser lemmas -/

theorem malloc_bytes_length (n : Nat) (heap : Nat → Nat) : (malloc_bytes n heap).length = n := by
  simp [malloc_bytes]

theorem get?_eq_some_getD (l : List Nat) (k : Nat) (h : k < l.length) :
    l.get? k = some (l.getD k 0) := by
  simp [List.getD, List.getElem?_eq_getElem h]

/-- The copy loop stores `bytes_array[i .. i+m)` into `data[j .. j+m)`. -/
theorem copy_loop_eq (bytes_array : List Nat) : ∀ (m i j : Nat) (data : List Nat),
    i + m ≤ bytes_array.length → j + m ≤ data.length →
    copy_loop bytes_array m i j data
      = .ok (data.take j ++ (bytes_array.drop i).take m ++ data.drop (j + m))
  | 0, i, j, data, _, _ => by simp [copy_loop]
  | m + 1, i, j, data, hi, hj => by
    have hb : bytes_array.get? i = some (bytes_array.getD i 0) :=
      get?_eq_some_getD _ _ (by omega)
    have hd : bytes_array.drop i = bytes_array.getD i 0 :: bytes_array.drop (i + 1) := by
      rw [List.drop_eq_getElem_cons (by omega : i < bytes_array.length)]
      simp [List.getD, List.getElem?_eq_getElem (by omega : i < bytes_array.length)]
    rw [copy_loop, hb]
    simp only [show j < data.length by omega, if_true]
    rw [copy_loop_eq bytes_array m (i + 1) (j + 1) _ (by omega) (by simp; omega),
      splice_set data j _ _ m (by omega), hd]
    simp

theorem get_byte_inv (line array a1 : List Nat) (start j rb r1 : Nat) (b : Bool)
    (h : get_byte line start array j rb = .ok (b, a1, r1)) :
    (b = true ∧ j < array.length ∧ a1.length = array.length ∧ r1 = (rb + 1) % 65536) ∨
      (b = false ∧ a1 = array ∧ r1 = rb) := by
  unfold get_byte at h
  cases h1 : line.get? start with
  | none =>
    rw [h1] at h
    cases h
  | some c1 =>
    cases h2 : line.get? (start + 1) with
    | none =>
      rw [h1, h2] at h
      cases h
    | some c2 =>
      rw [h1, h2] at h
      simp only at h
      by_cases hr : hex2dec c1 = 16 ∨ hex2dec c2 = 16
      · rw [if_pos hr] at h
        simp only [Exec.ok.injEq, Prod.mk.injEq] at h
        obtain ⟨rfl, rfl, rfl⟩ := h
        exact Or.inr ⟨rfl, rfl, rfl⟩
      · rw [if_neg hr] at h
        by_cases hj : j < array.length
        · rw [if_pos hj] at h
          simp only [Exec.ok.injEq, Prod.mk.injEq] at h
          obtain ⟨rfl, rfl, rfl⟩ := h
          exact Or.inl ⟨rfl, hj, by simp, rfl⟩
        · rw [if_neg hj] at h
          cases h

/-- The tokenizer loop never changes the size of the array, and on return the byte count has
grown by the number `m` of bytes written, all of them inside the array. -/
theorem convert_loop_inv (line : List Nat) : ∀ (fuel i j rb : Nat) (array out : List Nat)
    (b : Bool) (rb1 : Nat), j ≤ array.length → rb < 65536 →
    convert_loop line fuel i j array rb = .ok (b, out, rb1) →
    out.length = array.length ∧ ∃ m, j + m ≤ array.length ∧ rb1 = (rb + m) % 65536
  | 0, i, j, rb, array, out, b, rb1, _, _, h => by simp [convert_loop] at h
  | fuel + 1, i, j, rb, array, out, b, rb1, hj, hrb, h => by
    rw [convert_loop] at h
    split at h
    · cases h
    · split_ifs at h with hc
      · split at h
        · next a1 r1 hg =>
          rcases get_byte_inv _ _ _ _ _ _ _ _ hg with ⟨-, h1, h2, h3⟩ | ⟨hb, -, -⟩
          · have ih := convert_loop_inv line fuel (i + 2) (j + 1) r1 a1 out b rb1 (by omega)
              (by rw [h3]; exact Nat.mod_lt _ (by decide)) h
            obtain ⟨e1, m, e2, e3⟩ := ih
            refine ⟨by omega, m + 1, by omega, ?_⟩
            rw [e3, h3]; omega
          · cases hb
        · next a1 r1 hg =>
          simp only [Exec.ok.injEq, Prod.mk.injEq] at h
          obtain ⟨rfl, rfl, rfl⟩ := h
          rcases get_byte_inv _ _ _ _ _ _ _ _ hg with ⟨hb, -, -, -⟩ | ⟨-, h2, h3⟩
          · cases hb
          · subst h2 h3
            exact ⟨rfl, 0, by omega, by simp [Nat.mod_eq_of_lt hrb]⟩
        · cases h
        · cases h
      · simp only [Exec.ok.injEq, Prod.mk.injEq] at h
        obtain ⟨rfl, rfl, rfl⟩ := h
        exact ⟨rfl, 0, by omega, by simp [Nat.mod_eq_of_lt hrb]⟩

theorem convert_hex_line_to_bytes_inv (line array out : List Nat) (rb rb1 : Nat) (b : Bool)
    (hrb : rb < 65536) (h : convert_hex_line_to_bytes line array rb = .ok (b, out, rb1)) :
    out.length = array.length ∧ ∃ m, m ≤ array.length ∧ rb1 = (rb + m) % 65536 := by
  unfold convert_hex_line_to_bytes at h
  split at h
  · cases h
  · split_ifs at h
    · simp only [Exec.ok.injEq, Prod.mk.injEq] at h
      obtain ⟨rfl, rfl, rfl⟩ := h
      exact ⟨rfl, 0, by omega, by simp [Nat.mod_eq_of_lt hrb]⟩
    · obtain ⟨e, m, hm, e2⟩ := convert_loop_inv line _ 1 0 rb array out b rb1 (by omega) hrb h
      exact ⟨e, m, by omega, e2⟩

/-- What `parse_intel_hex_line` returns once the tokenizer has accepted the line with byte
array `bytes` and count `n ≥ 1`: no shape check is made. -/
theorem parse_intel_hex_line_of_convert (line bytes : List Nat) (heap : Nat → Nat)
    (record : Record) (n : Nat)
    (hconv : convert_hex_line_to_bytes line (malloc_bytes 260 heap) 0 = .ok (true, bytes, n))
    (hn : 1 ≤ n) (hdata : n - 5 ≤ record.data.length) :
    parse_intel_hex_line line heap record
      = .ok (true, { len := bytes.getD 0 0,
                     addr := ((bytes.getD 1 0 <<< 8) ||| bytes.getD 2 0) % 65536,
                     type := bytes.getD 3 0,
                     data := (bytes.drop 4).take (n - 5) ++ record.data.drop (n - 5),
                     check := bytes.getD (n - 1) 0 }) := by
  obtain ⟨hlen, m, hm, hnm⟩ := convert_hex_line_to_bytes_inv _ _ _ _ _ _ (by decide) hconv
  rw [malloc_bytes_length] at hlen hm
  have hn260 : n ≤ 260 := by omega
  unfold parse_intel_hex_line
  simp only [HEX_LINE_MAX_LENGTH, Nat.reduceDiv, hconv]
  rw [if_neg (by omega)]
  rw [get?_eq_some_getD bytes 0 (by omega), get?_eq_some_getD bytes 1 (by omega),
    get?_eq_some_getD bytes 2 (by omega), get?_eq_some_getD bytes 3 (by omega),
    get?_eq_some_getD bytes (n - 1) (by omega)]
  simp only
  rw [copy_loop_eq bytes (n - 1 - 4) 4 0 record.data (by omega) (by omega)]
  simp [show n - 1 - 4 = n - 5 by omega]

/-! ## Hexadecimal text -/

theorem hex2dec_of_mem_chars : ∀ v, v < 16 → ∀ c ∈ hex_digit_chars v, hex2dec c = v := by
  decide

theorem pair_byte_eq (b c1 c2 : Nat) (hb : b < 256) (h1 : c1 ∈ hex_digit_chars (b / 16))
    (h2 : c2 ∈ hex_digit_chars (b % 16)) : ((hex2dec c1 <<< 4) + hex2dec c2) % 256 = b := by
  rw [hex2dec_of_mem_chars (b / 16) (by omega) c1 h1,
    hex2dec_of_mem_chars (b % 16) (by omega) c2 h2, Nat.shiftLeft_eq]
  omega

/-- Text that writes the bytes `bs` has two characters per byte, all of them accepted by the
tokenizer, and decodes to `bs`. -/
theorem hex_text_decodes : ∀ (bs cs : List Nat), hex_text cs bs → (∀ b ∈ bs, b < 256) →
    cs.length = 2 * bs.length ∧ (∀ c ∈ cs, hex2dec c ≠ 16) ∧ pair_bytes cs = bs
  | [], [], _, _ => by simp [pair_bytes]
  | [], [_], h, _ => by simp [hex_text] at h
  | [], _ :: _ :: _, h, _ => by simp [hex_text] at h
  | _ :: _, [], h, _ => by simp [hex_text] at h
  | _ :: _, [_], h, _ => by simp [hex_text] at h
  | b :: bs, c1 :: c2 :: cs, h, hb => by
    simp only [hex_text] at h
    obtain ⟨h1, h2, h3⟩ := h
    have hb0 : b < 256 := hb b (by simp)
    obtain ⟨e1, e2, e3⟩ := hex_text_decodes bs cs h3 (fun x hx => hb x (by simp [hx]))
    have v1 := hex2dec_of_mem_chars (b / 16) (by omega) c1 h1
    have v2 := hex2dec_of_mem_chars (b % 16) (by omega) c2 h2
    refine ⟨by simp [e1]; omega, ?_, ?_⟩
    · intro c hc
      simp only [List.mem_cons] at hc
      rcases hc with rfl | rfl | hc
      · omega
      · omega
      · exact e2 c hc
    · simp only [pair_bytes, e3, pair_byte_eq b c1 c2 hb0 h1 h2]

theorem addr_bytes_eq (A : Nat) (hA : A < 65536) :
    (((A / 256) <<< 8) ||| (A % 256)) % 65536 = A := by
  have h := Nat.mul_add_lt_is_or (show A % 256 < 2 ^ 8 by omega) (A / 256)
  rw [Nat.shiftLeft_eq, Nat.mul_comm, ← h]
  omega

/-- The record read from a well-formed line: marker, text of the bytes
`L, A / 256, A % 256, T, P, C` with `P` of `L` bytes, then a terminator `t`. -/
theorem parse_intel_hex_line_record (L A T C t : Nat) (P cs post : List Nat)
    (heap : Nat → Nat) (record : Record)
    (hL : L ≤ 255) (hA : A < 65536) (hT : T ≤ 255) (hC : C ≤ 255)
    (hP : P.length = L) (hPb : ∀ b ∈ P, b ≤ 255)
    (hcs : hex_text cs ([L, A / 256, A % 256, T] ++ P ++ [C]))
    (ht : t = 0 ∨ t = 10) (hdata : L ≤ record.data.length) :
    parse_intel_hex_line (58 :: cs ++ t :: post) heap record
      = .ok (true, { len := L, addr := A, type := T, data := P ++ record.data.drop L,
                     check := C }) := by
  have hb : ∀ b ∈ [L, A / 256, A % 256, T] ++ P ++ [C], b < 256 := by
    intro b hb
    simp only [List.mem_append, List.mem_cons, List.mem_singleton, List.not_mem_nil,
      or_false] at hb
    rcases hb with ((rfl | rfl | rfl | rfl) | hb) | rfl
    · omega
    · omega
    · omega
    · omega
    · have := hPb b hb; omega
    · omega
  obtain ⟨e1, e2, e3⟩ := hex_text_decodes _ cs hcs hb
  have hn : ([L, A / 256, A % 256, T] ++ P ++ [C]).length = L + 5 := by simp [hP]
  rw [hn] at e1
  have hconv := convert_hex_line_to_bytes_accept (L + 5) cs post (malloc_bytes 260 heap) t 0
    e1 e2 ht (by omega) (by rw [malloc_bytes_length]; omega) (by decide)
  rw [e3, Nat.zero_add, Nat.mod_eq_of_lt (by omega : L + 5 < 65536)] at hconv
  rw [parse_intel_hex_line_of_convert _ _ heap record (L + 5) hconv (by omega) (by omega)]
  have h4 : ([L, A / 256, A % 256, T] ++ P ++ [C]
      ++ List.drop (L + 5) (malloc_bytes 260 heap)).getD (L + 5 - 1) 0 = C := by
    have hl : L + 5 - 1 = ([L, A / 256, A % 256, T] ++ P).length := by simp [hP]
    rw [hl, List.append_assoc ([L, A / 256, A % 256, T] ++ P), List.getD_eq_getElem?_getD,
      List.getElem?_append_right (Nat.le_refl _)]
    simp
  have h5 : List.take (L + 5 - 5) (List.drop 4 ([L, A / 256, A % 256, T] ++ P ++ [C]
      ++ List.drop (L + 5) (malloc_bytes 260 heap))) = P := by
    have : L + 5 - 5 = P.length := by omega
    rw [this]
    simp
  rw [h4, h5]
  simp [addr_bytes_eq A hA]

theorem parse_intel_hex_line_marker (line : List Nat) (heap : Nat → Nat) (record : Record)
    (c0 : Nat) (h0 : line.get? 0 = some c0) (hc : c0 ≠ 58) :
    parse_intel_hex_line line heap record = .ok (false, record) := by
  unfold parse_intel_hex_line
  simp only [convert_hex_line_to_bytes_marker line _ 0 c0 h0 hc]

theorem hex2dec_of_is_hex_digit (c : Nat) (h : is_hex_digit c = true) : hex2dec c < 16 := by
  have hc : c < 103 := by
    simp only [is_hex_digit, Bool.or_eq_true, Bool.and_eq_true, decide_eq_true_eq] at h
    omega
  have key : ∀ c < 103, is_hex_digit c = true → hex2dec c < 16 := by decide
  exact key c hc h

/-- An odd run of accepted characters followed by a rejected character: the complete pairs
are decoded, then the last character is paired with the rejected one and the tokenizer
fails. -/
theorem convert_hex_line_to_bytes_odd (ds post array : List Nat) (t rb : Nat)
    (hacc : ∀ d ∈ ds, hex2dec d ≠ 16) (hodd : ds.length % 2 = 1) (ht16 : hex2dec t = 16)
    (hlen : ds.length ≤ 521) (hcap : ds.length / 2 ≤ array.length) (hrb : rb < 65536) :
    convert_hex_line_to_bytes (58 :: ds ++ t :: post) array rb
      = .ok (false, pair_bytes (ds.take (ds.length - 1)) ++ array.drop (ds.length / 2),
          (rb + ds.length / 2) % 65536) := by
  have hsplit : ds = ds.take (ds.length - 1) ++ ds.drop (ds.length - 1) :=
    (List.take_append_drop _ _).symm
  obtain ⟨d, hd⟩ : ∃ d, ds.drop (ds.length - 1) = [d] :=
    List.length_eq_one.mp (by simp only [List.length_drop]; omega)
  have hdmem : d ∈ ds := by
    rw [hsplit, hd]; simp
  have hacc1 : ∀ c ∈ ds.take (ds.length - 1), hex2dec c ≠ 16 := fun c hc =>
    hacc c (List.mem_of_mem_take hc)
  have hl : (ds.take (ds.length - 1)).length = 2 * (ds.length / 2) := by
    simp only [List.length_take]; omega
  have hline : 58 :: ds ++ t :: post = 58 :: ds.take (ds.length - 1) ++ d :: t :: post := by
    conv_lhs => rw [hsplit, hd]
    simp
  rw [hline]
  exact convert_hex_line_to_bytes_reject (ds.length / 2) _ post array d t rb hl hacc1
    (ne_terminator_of_hex2dec (hacc d hdmem)) (Or.inr ht16) (by omega) hcap hrb

theorem parse_intel_hex_line_odd (ds post : List Nat) (t : Nat) (heap : Nat → Nat)
    (record : Record)
    (hacc : ∀ d ∈ ds, hex2dec d ≠ 16) (hodd : ds.length % 2 = 1) (ht16 : hex2dec t = 16)
    (hlen : ds.length ≤ 521) :
    parse_intel_hex_line (58 :: ds ++ t :: post) heap record = .ok (false, record) := by
  unfold parse_intel_hex_line
  simp only [HEX_LINE_MAX_LENGTH, Nat.reduceDiv]
  rw [convert_hex_line_to_bytes_odd ds post (malloc_bytes 260 heap) t 0 hacc hodd ht16 hlen
    (by rw [malloc_bytes_length]; omega) (by decide)]

/-! ## Line reader lemmas -/

theorem fgets_take_line : ∀ (k : Nat) (chars frest : List Nat), (∀ c ∈ chars, c ≠ 10) →
    chars.length < k → fgets_take k (chars ++ 10 :: frest) = (chars ++ [10], frest)
  | 0, _, _, _, h => by omega
  | k + 1, [], frest, _, _ => by simp [fgets_take]
  | k + 1, c :: chars, frest, hc, h => by
    have h1 : c ≠ 10 := hc c (by simp)
    have ih := fgets_take_line k chars frest (fun x hx => hc x (by simp [hx]))
      (by simpa using h)
    simp [fgets_take, h1, ih]

theorem fgets_take_full : ∀ (chars rest : List Nat), (∀ c ∈ chars, c ≠ 10) →
    fgets_take chars.length (chars ++ rest) = (chars, rest)
  | [], rest, _ => by simp [fgets_take]
  | c :: chars, rest, hc => by
    have h1 : c ≠ 10 := hc c (by simp)
    have ih := fgets_take_full chars rest (fun x hx => hc x (by simp [hx]))
    simp [fgets_take, h1, ih]

theorem fgets_take_eof : ∀ (k : Nat) (chars : List Nat), (∀ c ∈ chars, c ≠ 10) →
    chars.length ≤ k → fgets_take k chars = (chars, [])
  | 0, chars, _, h => by
    have : chars = [] := List.length_eq_zero.mp (by omega)
    subst this; rfl
  | k + 1, [], _, _ => rfl
  | k + 1, c :: chars, hc, h => by
    have h1 : c ≠ 10 := hc c (by simp)
    have ih := fgets_take_eof k chars (fun x hx => hc x (by simp [hx])) (by simpa using h)
    simp [fgets_take, h1, ih]

/-- A read from a stream that is not at its end succeeds, and the buffer then starts with the
first character of the stream. -/
theorem fgets_cons (line frest : List Nat) (c0 : Nat) (k : Nat) :
    ∃ tl rest, fgets line (k + 2) (c0 :: frest) = some (c0 :: tl, rest) := by
  by_cases h : c0 = 10
  · exact ⟨_, _, by simp [fgets, fgets_take, h]; exact ⟨rfl, rfl⟩⟩
  · exact ⟨_, _, by simp [fgets, fgets_take, h]; exact ⟨rfl, rfl⟩⟩

/-- Reading a line of at most 519 characters that ends with a newline: the buffer receives the
line, the newline and a NUL; the rest of the buffer keeps its content. -/
theorem fgets_line (line chars frest : List Nat) (hc : ∀ c ∈ chars, c ≠ 10)
    (hlen : chars.length ≤ 519) :
    fgets line HEX_LINE_MAX_LENGTH (chars ++ 10 :: frest)
      = some (chars ++ 10 :: 0 :: line.drop (chars.length + 2), frest) := by
  have h := fgets_take_line 520 chars frest hc (by omega)
  simp only [fgets, HEX_LINE_MAX_LENGTH, Nat.add_one_sub_one, h]
  cases chars <;> simp

/-- A line whose first character is not the marker stops the decode: the loop exits with
line number `next + 1` and the store as it was. -/
theorem read_loop_marker (heap : Nat → Nat → Nat) (stack : Nat → Record) (fuel k : Nat)
    (c0 : Nat) (frest line : List Nat) (records : List (Option Record)) (len next : Nat)
    (hc : c0 ≠ 58) :
    read_loop heap stack (fuel + 1) k (c0 :: frest) line records len next
      = .exited (next + 1) { records := records, size := next, capacity := len } := by
  obtain ⟨tl, rest, hf⟩ := fgets_cons line frest c0 519
  rw [read_loop]
  simp only [HEX_LINE_MAX_LENGTH, hf]
  rw [parse_intel_hex_line_marker (c0 :: tl) (heap k) (stack k) c0 rfl hc]

/-- The characters read by `fgets` followed by the rest of the stream are the stream. -/
theorem fgets_take_append : ∀ (k : Nat) (file : List Nat),
    (fgets_take k file).1 ++ (fgets_take k file).2 = file
  | 0, _ => rfl
  | _ + 1, [] => rfl
  | k + 1, c :: file => by
    by_cases h : c = 10
    · simp [fgets_take, h]
    · simp [fgets_take, h, fgets_take_append k file]

theorem fgets_shortens (line file line1 file1 : List Nat) (n : Nat)
    (h : fgets line n file = some (line1, file1)) : file1.length < file.length := by
  unfold fgets at h
  have ha := fgets_take_append (n - 1) file
  cases hft : fgets_take (n - 1) file with
  | mk cs rest =>
    rw [hft] at h ha
    cases cs with
    | nil => cases h
    | cons c cs =>
      simp only [Option.some.injEq, Prod.mk.injEq] at h
      obtain ⟨-, rfl⟩ := h
      rw [← ha]
      simp only [List.length_append, List.length_cons]
      omega

theorem copy_loop_no_timeout (bytes_array : List Nat) : ∀ (m i j : Nat) (data : List Nat),
    copy_loop bytes_array m i j data ≠ .timeout
  | 0, _, _, _ => by simp [copy_loop]
  | m + 1, i, j, data => by
    rw [copy_loop]
    split
    · simp
    · split_ifs
      · exact copy_loop_no_timeout bytes_array m _ _ _
      · simp

theorem parse_intel_hex_line_no_timeout (line : List Nat) (heap : Nat → Nat) (record : Record) :
    parse_intel_hex_line line heap record ≠ .timeout := by
  unfold parse_intel_hex_line
  simp only
  split
  · simp
  · next h => exact absurd h (convert_hex_line_to_bytes_no_timeout _ _ _)
  · simp
  · split_ifs
    · simp
    · split
      · split
        · simp
        · simp
        · next h => exact absurd h (copy_loop_no_timeout _ _ _ _ _)
      · simp

/-- The loop budget of the driving loop is never exhausted when it exceeds the number of
unread characters. -/
theorem read_loop_no_timeout (heap : Nat → Nat → Nat) (stack : Nat → Record) :
    ∀ (fuel k : Nat) (file line : List Nat) (records : List (Option Record)) (len next : Nat),
    file.length < fuel → read_loop heap stack fuel k file line records len next ≠ .timeout
  | 0, _, _, _, _, _, _, h => by omega
  | fuel + 1, k, file, line, records, len, next, h => by
    rw [read_loop]
    cases hf : fgets line HEX_LINE_MAX_LENGTH file with
    | none => simp
    | some res =>
      obtain ⟨line1, file1⟩ := res
      have hlt := fgets_shortens _ _ _ _ _ hf
      simp only
      cases hp : parse_intel_hex_line line1 (heap k) (stack k) with
      | undefined => simp
      | timeout => exact absurd hp (parse_intel_hex_line_no_timeout _ _ _)
      | ok res =>
        obtain ⟨b, record⟩ := res
        cases b
        · simp
        · simp only
          split_ifs
          · exact read_loop_no_timeout heap stack fuel _ _ _ _ _ _ (by omega)
          · exact read_loop_no_timeout heap stack fuel _ _ _ _ _ _ (by omega)
          · simp

/-- The model of `convert_hex_file_to_array` always finishes within its loop budget. -/
theorem convert_hex_file_to_array_no_timeout (file : List Nat) (line0 : Nat → Nat)
    (heap : Nat → Nat → Nat) (stack : Nat → Record) :
    convert_hex_file_to_array file line0 heap stack ≠ .timeout := by
  unfold convert_hex_file_to_array
  exact read_loop_no_timeout heap stack _ 0 file _ _ 10 0 (by omega)

/-! ## Record store lemmas -/

theorem store_of_length (stored : List Record) :
    (store_of stored).length = cap_of stored.length := by
  simp only [store_of, cap_of, List.length_append, List.length_map, List.length_replicate]
  omega

theorem set_append_replicate (A : List (Option Record)) (m : Nat) (x : Option Record) :
    (A ++ List.replicate (m + 1) none).set A.length x = A ++ x :: List.replicate m none := by
  rw [List.set_append_right _ _ (Nat.le_refl _), Nat.sub_self, List.replicate_succ]
  rfl

/-- Appending one record to a store that has not reached 65529 entries: the record goes into
slot `stored.length`, and the array grows by 10 slots when it becomes full. -/
theorem read_loop_good_line (heap : Nat → Nat → Nat) (stack : Nat → Record) (fuel k : Nat)
    (chars frest line : List Nat) (r : Record) (stored : List Record)
    (hg : good_line heap stack k chars r) (hn : stored.length + 1 ≤ 65529) :
    read_loop heap stack (fuel + 1) k (chars ++ 10 :: frest) line (store_of stored)
        (cap_of stored.length) stored.length
      = read_loop heap stack fuel (k + 1) frest
          (chars ++ 10 :: 0 :: line.drop (chars.length + 2)) (store_of (stored ++ [r]))
          (cap_of (stored.length + 1)) (stored.length + 1) := by
  obtain ⟨hnl, hlen, hparse⟩ := hg
  have hlt : stored.length < (store_of stored).length := by
    rw [store_of_length]; simp only [cap_of]; omega
  have hset : (store_of stored).set stored.length (some r)
      = stored.map some ++ some r
          :: List.replicate (cap_of stored.length - stored.length - 1) none := by
    have h := set_append_replicate (stored.map some)
      (cap_of stored.length - stored.length - 1) (some r)
    rw [List.length_map] at h
    rw [← h, store_of]
    congr 3
    simp only [cap_of]; omega
  rw [read_loop, fgets_line line chars frest hnl hlen]
  simp only [hparse, hlt, if_true]
  rw [Nat.mod_eq_of_lt (by omega : stored.length + 1 < 65536), hset]
  by_cases hfull : stored.length + 1 ≥ cap_of stored.length
  · have hcap : (cap_of stored.length + 10) % 65536 = cap_of (stored.length + 1) := by
      simp only [cap_of] at hfull ⊢; omega
    have hz : cap_of stored.length - stored.length - 1 = 0 := by omega
    rw [if_pos hfull, hcap]
    congr 1
    simp only [realloc, store_of, hz, List.replicate_zero, List.length_append, List.length_map,
      List.length_cons, List.length_nil, List.map_append, List.map_cons, List.map_nil]
    rw [List.take_of_length_le (by simp; simp only [cap_of]; omega)]
  · have hcap : cap_of stored.length = cap_of (stored.length + 1) := by
      simp only [cap_of] at hfull ⊢; omega
    rw [if_neg hfull, ← hcap]
    congr 1
    simp only [store_of, List.length_append, List.length_cons, List.length_nil, List.map_append,
      List.map_cons, List.map_nil, ← hcap]
    rw [show cap_of stored.length - stored.length - 1
        = cap_of stored.length - (stored.length + (0 + 1)) by omega]
    simp

theorem lines_text_append (ls ms : List (List Nat)) :
    lines_text (ls ++ ms) = lines_text ls ++ lines_text ms := by
  induction ls with
  | nil => rfl
  | cons l ls ih => simp [lines_text, ih]

theorem lines_text_length_ge (ls : List (List Nat)) : ls.length ≤ (lines_text ls).length := by
  induction ls with
  | nil => simp
  | cons l ls ih => simp [lines_text]; omega

/-- Decoding a run of good lines, as long as the store stays below 65530 entries: every
record is appended in order, nothing stored before is changed, and the capacity follows
`cap_of`. -/
theorem read_loop_good_lines (heap : Nat → Nat → Nat) (stack : Nat → Record)
    (frest : List Nat) :
    ∀ (ls : List (List Nat × Record)) (stored : List Record) (k fuel : Nat) (line : List Nat),
    good_lines heap stack k ls → stored.length + ls.length ≤ 65529 →
    ∃ line1, read_loop heap stack (fuel + ls.length) k (lines_text (ls.map Prod.fst) ++ frest)
        line (store_of stored) (cap_of stored.length) stored.length
      = read_loop heap stack fuel (k + ls.length) frest line1
          (store_of (stored ++ ls.map Prod.snd)) (cap_of (stored.length + ls.length))
          (stored.length + ls.length)
  | [], stored, k, fuel, line, _, _ => ⟨line, by simp [lines_text]⟩
  | (l, r) :: ls, stored, k, fuel, line, hg, hn => by
    obtain ⟨hg1, hg2⟩ := hg
    simp only [List.length_cons] at hn
    obtain ⟨line1, ih⟩ := read_loop_good_lines heap stack frest ls (stored ++ [r]) (k + 1) fuel
      (l ++ 10 :: 0 :: line.drop (l.length + 2)) hg2 (by simp; omega)
    refine ⟨line1, ?_⟩
    have e1 : fuel + ((l, r) :: ls).length = (fuel + ls.length) + 1 := by simp; omega
    have e2 : lines_text (((l, r) :: ls).map Prod.fst) ++ frest
        = l ++ 10 :: (lines_text (ls.map Prod.fst) ++ frest) := by simp [lines_text]
    rw [e1, e2, read_loop_good_line heap stack _ k l _ line r stored hg1 (by omega)]
    simp only [List.length_append, List.length_singleton] at ih
    rw [ih]
    simp only [List.length_cons, List.map_cons, List.append_assoc, List.singleton_append]
    rw [show k + 1 + ls.length = k + (ls.length + 1) by omega,
      show stored.length + 1 + ls.length = stored.length + (ls.length + 1) by omega]

theorem read_loop_eof (heap : Nat → Nat → Nat) (stack : Nat → Record) (fuel k : Nat)
    (line : List Nat) (records : List (Option Record)) (len next : Nat) :
    read_loop heap stack (fuel + 1) k [] line records len next
      = .returned { records := records, size := next, capacity := len } := by
  rw [read_loop]
  rfl

/-- A file of at most 65529 good lines is decoded into the store that holds their records in
file order, with `size` the number of lines. -/
theorem convert_hex_file_to_array_good_lines (heap : Nat → Nat → Nat) (stack : Nat → Record)
    (line0 : Nat → Nat) (ls : List (List Nat × Record)) (hg : good_lines heap stack 0 ls)
    (hn : ls.length ≤ 65529) :
    convert_hex_file_to_array (lines_text (ls.map Prod.fst)) line0 heap stack
      = .returned { records := store_of (ls.map Prod.snd), size := ls.length,
                    capacity := cap_of ls.length } := by
  have hlen := lines_text_length_ge (ls.map Prod.fst)
  rw [List.length_map] at hlen
  obtain ⟨line1, h⟩ := read_loop_good_lines heap stack [] ls [] 0
    ((lines_text (ls.map Prod.fst)).length - ls.length + 1)
    ((List.range HEX_LINE_MAX_LENGTH).map (fun k => line0 k % 256)) hg (by simpa using hn)
  simp only [List.append_nil, List.length_nil, Nat.zero_add, List.nil_append] at h
  unfold convert_hex_file_to_array
  have e : (lines_text (ls.map Prod.fst)).length + 1
      = (lines_text (ls.map Prod.fst)).length - ls.length + 1 + ls.length := by omega
  have e0 : (List.replicate 10 none : List (Option Record)) = store_of [] := rfl
  have e1 : (10 : Nat) = cap_of 0 := rfl
  simp only []
  rw [e, e0]
  conv_lhs => rw [e1]
  rw [h, read_loop_eof]

/-- The 65530th append: the record is written into the last slot, `next` becomes 65530, the
16-bit capacity `65530 + 10` wraps to 4 and `realloc` cuts the array down to 4 records. -/
theorem read_loop_wrap (heap : Nat → Nat → Nat) (stack : Nat → Record) (fuel k : Nat)
    (chars frest line : List Nat) (r : Record) (stored : List Record)
    (hg : good_line heap stack k chars r) (hn : stored.length = 65529) :
    read_loop heap stack (fuel + 1) k (chars ++ 10 :: frest) line (store_of stored)
        (cap_of stored.length) stored.length
      = read_loop heap stack fuel (k + 1) frest
          (chars ++ 10 :: 0 :: line.drop (chars.length + 2)) ((stored.take 4).map some)
          4 65530 := by
  obtain ⟨hnl, hlen, hparse⟩ := hg
  have hcap : cap_of stored.length = 65530 := by rw [hn]; rfl
  have hlt : stored.length < (store_of stored).length := by
    rw [store_of_length, hcap]; omega
  have hset : (store_of stored).set stored.length (some r) = stored.map some ++ [some r] := by
    have h := set_append_replicate (stored.map some) 0 (some r)
    rw [List.length_map] at h
    rw [store_of, hcap, hn]
    rw [hn] at h
    exact h
  rw [read_loop, fgets_line line chars frest hnl hlen]
  simp only [hparse, hlt, if_true]
  rw [hset, hcap, hn]
  have h1 : (65529 + 1) % 65536 = 65530 := by decide
  have h2 : (65530 + 10) % 65536 = 4 := by decide
  rw [h1, h2, if_pos (Nat.le_refl _)]
  congr 1
  simp only [realloc, List.length_append, List.length_map, List.length_singleton, hn]
  rw [List.take_append_of_le_length (by simp [hn]), List.map_take]
  simp

theorem good_lines_replicate (heap : Nat → Nat → Nat) (stack : Nat → Record) (l : List Nat)
    (r : Record) (h : ∀ k, good_line heap stack k l r) :
    ∀ (n k : Nat), good_lines heap stack k (List.replicate n (l, r))
  | 0, _ => trivial
  | n + 1, k => ⟨h k, good_lines_replicate heap stack l r h n (k + 1)⟩

theorem eof_line_good (heap : Nat → Nat → Nat) (k : Nat) :
    good_line heap (fun _ => zero_record) k eof_chars eof_record := by
  refine ⟨by decide, by decide, fun stale => ?_⟩
  exact parse_intel_hex_line_record 0 0 1 255 10 [] [48, 48, 48, 48, 48, 48, 48, 49, 70, 70]
    (0 :: stale) (heap k) zero_record (by decide) (by decide) (by decide) (by decide) rfl
    (by simp) (by simp [hex_text, hex_digit_chars]) (Or.inr rfl) (by simp)

/-- A file of 65530 good lines: the decode returns, but with `size = 65530`, `capacity = 4`
and an array cut down to the first 4 records. -/
theorem convert_hex_file_to_array_wrap (heap : Nat → Nat → Nat) (stack : Nat → Record)
    (line0 : Nat → Nat) (ls : List (List Nat × Record)) (l : List Nat) (r : Record)
    (hg : good_lines heap stack 0 ls) (hl : good_line heap stack ls.length l r)
    (hn : ls.length = 65529) :
    convert_hex_file_to_array (lines_text (ls.map Prod.fst ++ [l])) line0 heap stack
      = .returned { records := ((ls.map Prod.snd).take 4).map some, size := 65530,
                    capacity := 4 } := by
  have hlen := lines_text_length_ge (ls.map Prod.fst ++ [l])
  simp only [List.length_append, List.length_map, List.length_singleton] at hlen
  have htext : lines_text (ls.map Prod.fst ++ [l])
      = lines_text (ls.map Prod.fst) ++ (l ++ 10 :: []) := by
    rw [lines_text_append]; rfl
  obtain ⟨line1, h⟩ := read_loop_good_lines heap stack (l ++ 10 :: []) ls [] 0
    ((lines_text (ls.map Prod.fst ++ [l])).length - 65530 + 1 + 1)
    ((List.range HEX_LINE_MAX_LENGTH).map (fun k => line0 k % 256)) hg (by simp; omega)
  simp only [List.length_nil, Nat.zero_add, List.nil_append] at h
  have hw := read_loop_wrap heap stack
    ((lines_text (ls.map Prod.fst ++ [l])).length - 65530 + 1) ls.length l [] line1 r
    (ls.map Prod.snd) hl (by rw [List.length_map]; exact hn)
  rw [List.length_map] at hw
  unfold convert_hex_file_to_array
  have e : (lines_text (ls.map Prod.fst ++ [l])).length + 1
      = (lines_text (ls.map Prod.fst ++ [l])).length - 65530 + 1 + 1 + ls.length := by omega
  have e0 : (List.replicate 10 none : List (Option Record)) = store_of [] := rfl
  have e1 : (10 : Nat) = cap_of 0 := rfl
  simp only []
  rw [e, e0]
  conv_lhs => rw [e1]
  simp only [htext] at h hw ⊢
  rw [h, hw, read_loop_eof]

/-- A line of `:` and 520 accepted characters (a record with 255 payload bytes) does not fit
one read: `fgets` delivers `:` and 519 characters, the last one is paired with the NUL, the
parser fails and the decode exits. -/
theorem read_loop_cut_line (heap : Nat → Nat → Nat) (stack : Nat → Record) (fuel k : Nat)
    (cs frest line : List Nat) (records : List (Option Record)) (len next : Nat)
    (hlen : cs.length = 520) (hacc : ∀ c ∈ cs, hex2dec c ≠ 16) :
    read_loop heap stack (fuel + 1) k (58 :: cs ++ frest) line records len next
      = .exited (next + 1) { records := records, size := next, capacity := len } := by
  have hsplit : 58 :: cs ++ frest = (58 :: cs.take 519) ++ (cs.drop 519 ++ frest) := by
    rw [List.cons_append, List.cons_append, ← List.append_assoc, List.take_append_drop]
  have hl : (58 :: cs.take 519).length = 520 := by simp [hlen]
  have hnl : ∀ c ∈ 58 :: cs.take 519, c ≠ 10 := by
    intro c hc
    rcases List.mem_cons.mp hc with rfl | hc
    · decide
    · exact (ne_terminator_of_hex2dec (hacc c (List.mem_of_mem_take hc))).2
  have hf := fgets_take_full (58 :: cs.take 519) (cs.drop 519 ++ frest) hnl
  rw [hl, ← hsplit] at hf
  have hfg : fgets line HEX_LINE_MAX_LENGTH (58 :: cs ++ frest)
      = some (58 :: cs.take 519 ++ 0 :: line.drop 521, cs.drop 519 ++ frest) := by
    simp only [fgets, HEX_LINE_MAX_LENGTH, Nat.add_one_sub_one, hf]
    simp [hlen]
  rw [read_loop, hfg]
  simp only
  rw [parse_intel_hex_line_odd (cs.take 519) (line.drop 521) 0 (heap k) (stack k)
    (fun c hc => hacc c (List.mem_of_mem_take hc)) (by simp [hlen]) hex2dec_nul
    (by simp [hlen])]

/-- A well-formed line with at most 254 payload bytes is a `good_line` whatever its checksum
byte `C` is: it is read whole by one `fgets`, parsed successfully, and `C` is copied into
`check` without being compared with anything. -/
theorem good_line_of_record_text (heap : Nat → Nat → Nat) (stack : Nat → Record) (k : Nat)
    (L A T C : Nat) (P cs : List Nat)
    (hL : L ≤ 254) (hA : A < 65536) (hT : T ≤ 255) (hC : C ≤ 255)
    (hP : P.length = L) (hPb : ∀ b ∈ P, b ≤ 255)
    (hcs : hex_text cs ([L, A / 256, A % 256, T] ++ P ++ [C]))
    (hdata : L ≤ (stack k).data.length) :
    good_line heap stack k (58 :: cs)
      { len := L, addr := A, type := T, data := P ++ (stack k).data.drop L, check := C } := by
  have hb : ∀ b ∈ [L, A / 256, A % 256, T] ++ P ++ [C], b < 256 := by
    intro b hb
    simp only [List.mem_append, List.mem_cons, List.mem_singleton, List.not_mem_nil,
      or_false] at hb
    rcases hb with ((rfl | rfl | rfl | rfl) | hb) | rfl
    · omega
    · omega
    · omega
    · omega
    · have := hPb b hb; omega
    · omega
  obtain ⟨e1, e2, -⟩ := hex_text_decodes _ cs hcs hb
  have hn : ([L, A / 256, A % 256, T] ++ P ++ [C]).length = L + 5 := by simp [hP]
  rw [hn] at e1
  refine ⟨?_, by simp only [List.length_cons]; omega, fun stale => ?_⟩
  · intro c hc
    rcases List.mem_cons.mp hc with rfl | hc
    · decide
    · exact (ne_terminator_of_hex2dec (e2 c hc)).2
  · exact parse_intel_hex_line_record L A T C 10 P cs (0 :: stale) (heap k) (stack k)
      (by omega) hA hT hC hP hPb hcs (Or.inr rfl) hdata

/-! ## Lines that carry the largest payload -/

theorem hex_text_append : ∀ (bs1 cs1 : List Nat) (cs2 bs2 : List Nat), hex_text cs1 bs1 →
    hex_text cs2 bs2 → hex_text (cs1 ++ cs2) (bs1 ++ bs2)
  | [], [], _, _, _, h2 => by simpa using h2
  | [], [_], _, _, h, _ => by simp [hex_text] at h
  | [], _ :: _ :: _, _, _, h, _ => by simp [hex_text] at h
  | _ :: _, [], _, _, h, _ => by simp [hex_text] at h
  | _ :: _, [_], _, _, h, _ => by simp [hex_text] at h
  | b :: bs, c1 :: c2 :: cs, cs2, bs2, h1, h2 => by
    simp only [hex_text] at h1
    simp only [List.cons_append, hex_text]
    exact ⟨h1.1, h1.2.1, hex_text_append bs cs cs2 bs2 h1.2.2 h2⟩

theorem hex_text_zeros : ∀ n : Nat, hex_text (List.replicate (2 * n) 48) (List.replicate n 0)
  | 0 => by simp [hex_text]
  | n + 1 => by
    rw [show 2 * (n + 1) = 2 * n + 1 + 1 by omega, List.replicate_succ, List.replicate_succ,
      List.replicate_succ]
    simp only [hex_text]
    exact ⟨by decide, by decide, hex_text_zeros n⟩

theorem max_record_line_text (c C : Nat) (h : hex_text [48, c] [C]) :
    hex_text ([70, 70, 48, 48, 48, 48, 48, 48] ++ List.replicate 510 48 ++ [48, c])
      ([255, 0 / 256, 0 % 256, 0] ++ List.replicate 255 0 ++ [C]) :=
  hex_text_append _ _ _ _
    (hex_text_append [255, 0, 0, 0] [70, 70, 48, 48, 48, 48, 48, 48] _ _
      (by simp [hex_text, hex_digit_chars]) (hex_text_zeros 255)) h

/-- The parser accepts the 521-character line of `max_record_line` when it is given whole. -/
theorem parse_intel_hex_line_max_record (c C : Nat) (post : List Nat) (heap : Nat → Nat)
    (h : hex_text [48, c] [C]) (hC : C ≤ 255) :
    parse_intel_hex_line (max_record_line c ++ 10 :: post) heap zero_record
      = .ok (true, { len := 255, addr := 0, type := 0, data := List.replicate 255 0,
                     check := C }) := by
  have hp := parse_intel_hex_line_record 255 0 0 C 10 (List.replicate 255 0)
    ([70, 70, 48, 48, 48, 48, 48, 48] ++ List.replicate 510 48 ++ [48, c]) post heap
    zero_record (by decide) (by decide) (by decide) hC (List.length_replicate _ _)
    (fun b hb => by rw [List.eq_of_mem_replicate hb]; decide) (max_record_line_text c C h)
    (Or.inr rfl) (by rw [zero_record, List.length_replicate])
  have hd : List.drop 255 zero_record.data = [] :=
    List.drop_eq_nil_of_le (by rw [zero_record, List.length_replicate])
  rw [hd, List.append_nil] at hp
  exact hp

/-- The decode of a file that starts with the line of `max_record_line` exits at line 1. -/
theorem convert_hex_file_to_array_max_record (c : Nat) (frest : List Nat) (line0 : Nat → Nat)
    (heap : Nat → Nat → Nat) (stack : Nat → Record) (hc : hex2dec c ≠ 16) :
    convert_hex_file_to_array (max_record_line c ++ frest) line0 heap stack
      = .exited 1 { records := List.replicate 10 none, size := 0, capacity := 10 } := by
  have hlen : ([70, 70, 48, 48, 48, 48, 48, 48] ++ List.replicate 510 48 ++ [48, c]).length
      = 520 := by
    simp only [List.length_append, List.length_replicate, List.length_cons, List.length_nil]
  have hacc : ∀ x ∈ [70, 70, 48, 48, 48, 48, 48, 48] ++ List.replicate 510 48 ++ [48, c],
      hex2dec x ≠ 16 := by
    intro x hx
    simp only [List.mem_append, List.mem_cons, List.mem_replicate, List.mem_singleton,
      List.not_mem_nil, or_false] at hx
    rcases hx with ((rfl | rfl | rfl | rfl | rfl | rfl | rfl | rfl) | ⟨-, rfl⟩) | rfl | rfl
    all_goals first | exact hc | decide
  unfold convert_hex_file_to_array
  exact read_loop_cut_line heap stack _ 0 _ frest _ _ 10 0 hlen hacc

/-! ## Checksum lemmas -/

theorem foldl_sum_mod (f : Nat → Nat) : ∀ (l : List Nat) (s0 : Nat),
    (l.foldl (fun sum i => (sum + f i) % 256) s0) % 256 = (s0 + (l.map f).sum) % 256
  | [], s0 => by simp
  | i :: l, s0 => by
    simp only [List.foldl_cons, List.map_cons, List.sum_cons]
    rw [foldl_sum_mod f l]
    omega

theorem foldl_sum_lt (f : Nat → Nat) : ∀ (l : List Nat) (s0 : Nat), s0 < 256 →
    l.foldl (fun sum i => (sum + f i) % 256) s0 < 256
  | [], s0, h => by simpa using h
  | i :: l, s0, _ => by
    simp only [List.foldl_cons]
    exact foldl_sum_lt f l _ (Nat.mod_lt _ (by decide))

/-- The value that `validate_record` compares with `record.check`. -/
theorem validate_record_eq (r : Record) :
    validate_record r = (expected_checksum r == r.check) := by
  have hhi : (r.addr >>> 8) % 256 = r.addr / 256 % 256 := by
    rw [Nat.shiftRight_eq_div_pow]
  have hlo : (r.addr &&& 0x00ff) % 256 = r.addr % 256 := by
    have h := Nat.and_pow_two_sub_one_eq_mod r.addr 8
    norm_num at h
    rw [h]
    omega
  unfold validate_record expected_checksum record_sum
  simp only [hhi, hlo]
  have h1 : (List.foldl (fun sum i => (sum + r.data.getD i 0) % 256)
      ((r.len + r.addr / 256 % 256 + r.addr % 256 + r.type) % 256) (List.range r.len)) % 256
      = ((r.len + r.addr / 256 % 256 + r.addr % 256 + r.type) % 256
          + ((List.range r.len).map (fun i => r.data.getD i 0)).sum) % 256 :=
    foldl_sum_mod (fun i => r.data.getD i 0) _ _
  have h2 : List.foldl (fun sum i => (sum + r.data.getD i 0) % 256)
      ((r.len + r.addr / 256 % 256 + r.addr % 256 + r.type) % 256) (List.range r.len) < 256 :=
    foldl_sum_lt (fun i => r.data.getD i 0) _ _ (Nat.mod_lt _ (by decide))
  generalize List.foldl (fun sum i => (sum + r.data.getD i 0) % 256)
      ((r.len + r.addr / 256 % 256 + r.addr % 256 + r.type) % 256) (List.range r.len) = x at h1 h2 ⊢
  generalize ((List.range r.len).map (fun i => r.data.getD i 0)).sum = y at h1 ⊢
  congr 1
  omega

theorem hex2dec_le_15_iff (c : Nat) : hex2dec c ≤ 15 ↔ is_hex_digit c = true := by
  by_cases hc : c < 123
  · have key : ∀ c < 123, (hex2dec c ≤ 15 ↔ is_hex_digit c = true) := by decide
    exact key c hc
  · have h1 : hex2dec c = 16 := by
      unfold hex2dec
      rw [if_neg (by omega), if_neg (by omega), if_neg (by omega)]
    have h2 : is_hex_digit c = false := by
      simp only [is_hex_digit, Bool.or_eq_false_iff, Bool.and_eq_false_iff,
        decide_eq_false_iff_not]
      omega
    rw [h1, h2]
    simp

theorem getD_set (data : List Nat) (i k v : Nat) (hi : i < data.length) :
    (data.set i v).getD k 0 = if k = i then v else data.getD k 0 := by
  simp only [List.getD_eq_getElem?_getD, List.getElem?_set, hi, if_true]
  by_cases h : i = k
  · subst h; simp
  · rw [if_neg h, if_neg (fun e => h e.symm)]

/-- Effect on the payload sum of replacing `data[i]` by `v`. -/
theorem data_sum_set (data : List Nat) (i v : Nat) (hi : i < data.length) : ∀ n : Nat,
    ((List.range n).map (fun k => (data.set i v).getD k 0)).sum
        + (if i < n then data.getD i 0 else 0)
      = ((List.range n).map (fun k => data.getD k 0)).sum + (if i < n then v else 0)
  | 0 => by simp
  | n + 1 => by
    have ih := data_sum_set data i v hi n
    rw [List.range_succ, List.map_append, List.map_append, List.sum_append, List.sum_append]
    simp only [List.map_cons, List.map_nil, List.sum_cons, List.sum_nil, Nat.add_zero]
    rw [getD_set data i n v hi]
    by_cases h1 : i < n
    · rw [if_pos h1] at ih
      rw [if_pos h1] at ih
      rw [if_pos (by omega : i < n + 1), if_pos (by omega : i < n + 1),
        if_neg (by omega : ¬ n = i)]
      omega
    · rw [if_neg h1] at ih
      rw [if_neg h1] at ih
      by_cases h2 : n = i
      · subst h2
        rw [if_pos (by omega : n < n + 1), if_pos (by omega : n < n + 1), if_pos rfl]
        omega
      · rw [if_neg (by omega : ¬ i < n + 1), if_neg (by omega : ¬ i < n + 1), if_neg h2]
        omega

theorem validate_record_false_of_sum (r r2 : Record) (hv : validate_record r = true)
    (hc : r2.check = r.check) (hs : record_sum r2 % 256 ≠ record_sum r % 256) :
    validate_record r2 = false := by
  rw [validate_record_eq, beq_iff_eq] at hv
  rw [validate_record_eq, beq_eq_false_iff_ne, hc, ← hv]
  unfold expected_checksum
  omega

theorem hex2dec_eq_hex_value (c : Nat) (h : is_hex_digit c = true) :
    hex2dec c = hex_value c ∧ hex_value c < 16 := by
  have hc : c < 103 := by
    simp only [is_hex_digit, Bool.or_eq_true, Bool.and_eq_true, decide_eq_true_eq] at h
    omega
  have key : ∀ c < 103, is_hex_digit c = true → hex2dec c = hex_value c ∧ hex_value c < 16 := by
    decide
  exact key c hc h

/-- Byte `k` decoded from a run of hexadecimal digits is 16 times the value of digit `2k`
plus the value of digit `2k + 1`. -/
theorem pair_bytes_getD : ∀ (n : Nat) (ds : List Nat), ds.length = 2 * n →
    (∀ d ∈ ds, is_hex_digit d = true) → ∀ k < n,
    (pair_bytes ds).getD k 0
      = 16 * hex_value (ds.getD (2 * k) 0) + hex_value (ds.getD (2 * k + 1) 0)
  | 0, _, _, _, k, hk => by omega
  | n + 1, [], h, _, _, _ => by simp at h
  | n + 1, [_], h, _, _, _ => by simp at h; omega
  | n + 1, d1 :: d2 :: ds, h, hds, k, hk => by
    have h2 : ds.length = 2 * n := by simp at h; omega
    obtain ⟨e1, b1⟩ := hex2dec_eq_hex_value d1 (hds d1 (by simp))
    obtain ⟨e2, b2⟩ := hex2dec_eq_hex_value d2 (hds d2 (by simp))
    cases k with
    | zero =>
      simp only [pair_bytes, List.getD_cons_zero, Nat.mul_zero, Nat.zero_add,
        List.getD_cons_succ, e1, e2, Nat.shiftLeft_eq]
      omega
    | succ k =>
      have ih := pair_bytes_getD n ds h2 (fun d hd => hds d (by simp [hd])) k (by omega)
      simp only [pair_bytes, List.getD_cons_succ, show 2 * (k + 1) = 2 * k + 1 + 1 by omega]
      exact ih

/-! ## Independence from what follows the terminator -/

theorem get?_append_lt (s r : List Nat) (i : Nat) (h : i < s.length) :
    (s ++ r).get? i = s.get? i := by
  simp only [List.get?_eq_getElem?]
  exact List.getElem?_append_left h

theorem get?_append_length (s r : List Nat) (x : Nat) : (s ++ x :: r).get? s.length = some x := by
  have h := get?_append_add s (x :: r) 0
  simpa using h

/-- Two buffers that share the text `s` (free of NUL and newline) up to a terminator are
tokenized alike from any point of the loop: the loop never reads beyond the terminator.  The
index `i = 2j + 1` stays below 65536 because `j` cannot pass the end of the array. -/
theorem convert_loop_agree (s pa pb : List Nat) (a b : Nat) (hs : ∀ c ∈ s, c ≠ 0 ∧ c ≠ 10)
    (ha : a = 0 ∨ a = 10) (hb : b = 0 ∨ b = 10) :
    ∀ (fa fb i j rb : Nat) (array : List Nat), i = 2 * j + 1 → i ≤ s.length →
    j ≤ array.length → array.length ≤ 32767 →
    (s ++ a :: pa).length - i < fa → (s ++ b :: pb).length - i < fb →
    convert_loop (s ++ a :: pa) fa i j array rb = convert_loop (s ++ b :: pb) fb i j array rb
  | 0, _, _, _, _, _, _, _, _, _, h, _ => by omega
  | _ + 1, 0, _, _, _, _, _, _, _, _, _, h => by omega
  | fa + 1, fb + 1, i, j, rb, array, hij, hi, hj, harr, hfa, hfb => by
    have ha16 : hex2dec a = 16 := by
      rcases ha with rfl | rfl
      · exact hex2dec_nul
      · exact hex2dec_newline
    have hb16 : hex2dec b = 16 := by
      rcases hb with rfl | rfl
      · exact hex2dec_nul
      · exact hex2dec_newline
    have hmod : i % 65536 = i := Nat.mod_eq_of_lt (by omega)
    simp only [List.length_append, List.length_cons] at hfa hfb
    rw [convert_loop, convert_loop, hmod]
    by_cases hlt : i < s.length
    · obtain ⟨c, hc⟩ : ∃ c, s.get? i = some c := by
        rw [List.get?_eq_getElem?, List.getElem?_eq_getElem hlt]
        exact ⟨_, rfl⟩
      have hcs : c ∈ s := by
        rw [List.get?_eq_getElem?, List.getElem?_eq_getElem hlt] at hc
        cases hc
        exact List.getElem_mem hlt
      rw [get?_append_lt s _ i hlt, get?_append_lt s _ i hlt, hc]
      simp only [(hs c hcs).1, (hs c hcs).2, ne_eq, not_false_eq_true, and_self, if_true]
      by_cases hlt2 : i + 1 < s.length
      · have hg : get_byte (s ++ a :: pa) i array j rb = get_byte (s ++ b :: pb) i array j rb := by
          unfold get_byte
          rw [get?_append_lt s _ i hlt, get?_append_lt s _ i hlt,
            get?_append_lt s _ (i + 1) hlt2, get?_append_lt s _ (i + 1) hlt2]
        rw [hg]
        cases hG : get_byte (s ++ b :: pb) i array j rb with
        | undefined => rfl
        | timeout => rfl
        | ok res =>
          obtain ⟨ok, a1, r1⟩ := res
          cases ok with
          | false => rfl
          | true =>
            rcases get_byte_inv _ _ _ _ _ _ _ _ hG with ⟨-, h1, h2, -⟩ | ⟨h0, -, -⟩
            · simp only
              exact convert_loop_agree s pa pb a b hs ha hb fa fb (i + 2) (j + 1) r1 a1
                (by omega) (by omega) (by omega) (by omega)
                (by simp only [List.length_append, List.length_cons]; omega)
                (by simp only [List.length_append, List.length_cons]; omega)
            · cases h0
      · have hi1 : i + 1 = s.length := by omega
        have g1a : (s ++ a :: pa).get? i = some c := by rw [get?_append_lt s _ i hlt, hc]
        have g1b : (s ++ b :: pb).get? i = some c := by rw [get?_append_lt s _ i hlt, hc]
        have g2a : (s ++ a :: pa).get? (i + 1) = some a := by
          rw [hi1]; exact get?_append_length s pa a
        have g2b : (s ++ b :: pb).get? (i + 1) = some b := by
          rw [hi1]; exact get?_append_length s pb b
        rw [get_byte_reject _ _ _ _ c a _ g1a g2a (Or.inr ha16),
          get_byte_reject _ _ _ _ c b _ g1b g2b (Or.inr hb16)]
    · have hi0 : i = s.length := by omega
      rw [hi0, get?_append_length s pa a, get?_append_length s pb b]
      rcases ha with rfl | rfl <;> rcases hb with rfl | rfl <;> simp

theorem convert_hex_line_to_bytes_agree (s pa pb array : List Nat) (a b rb : Nat)
    (hs : ∀ c ∈ s, c ≠ 0 ∧ c ≠ 10) (ha : a = 0 ∨ a = 10) (hb : b = 0 ∨ b = 10)
    (harr : array.length ≤ 32767) :
    convert_hex_line_to_bytes (s ++ a :: pa) array rb
      = convert_hex_line_to_bytes (s ++ b :: pb) array rb := by
  unfold convert_hex_line_to_bytes
  cases s with
  | nil =>
    simp only [List.nil_append, List.get?_cons_zero, RECORD_START_CODE]
    rcases ha with rfl | rfl <;> rcases hb with rfl | rfl <;> simp
  | cons c s =>
    simp only [List.cons_append, List.get?_cons_zero]
    split_ifs
    · rfl
    · exact convert_loop_agree (c :: s) pa pb a b hs ha hb _ _ 1 0 rb array rfl
        (by simp) (by omega) harr (by simp; omega) (by simp; omega)

/-! ## Memory safety of the tokenizer on lines delivered by `fgets` -/

/-- On a buffer that holds a string of at most 520 characters and its NUL, with an array of
at least 260 bytes, the tokenizer loop makes no access outside the buffer or the array: it
returns, having written `m` bytes at `array[j .. j+m)`, and its index `2(j+m)+1` has not
passed the NUL. -/
theorem convert_loop_safe (s : List Nat) (hs : ∀ c ∈ s, c ≠ 0) (hlen : s.length ≤ 520) :
    ∀ (fuel i j rb : Nat) (array : List Nat), i = 2 * j + 1 → i ≤ s.length →
    260 ≤ array.length → (s ++ [0]).length - i < fuel → rb < 65536 →
    ∃ b out m, convert_loop (s ++ [0]) fuel i j array rb = .ok (b, out, (rb + m) % 65536) ∧
      out.length = array.length ∧ 2 * (j + m) + 1 ≤ s.length ∧
      out.drop (j + m) = array.drop (j + m)
  | 0, _, _, _, _, _, _, _, h, _ => by omega
  | fuel + 1, i, j, rb, array, hij, hi, harr, hfuel, hrb => by
    have hmod : i % 65536 = i := Nat.mod_eq_of_lt (by omega)
    simp only [List.length_append, List.length_singleton] at hfuel
    rw [convert_loop, hmod]
    by_cases hlt : i < s.length
    · obtain ⟨c, hc⟩ : ∃ c, s.get? i = some c := by
        rw [List.get?_eq_getElem?, List.getElem?_eq_getElem hlt]
        exact ⟨_, rfl⟩
      have g1 : (s ++ [0]).get? i = some c := by rw [get?_append_lt s _ i hlt, hc]
      rw [g1]
      simp only
      by_cases hterm : c ≠ 0 ∧ c ≠ 10
      · rw [if_pos hterm]
        obtain ⟨c2, g2, hc2⟩ : ∃ c2, (s ++ [0]).get? (i + 1) = some c2 ∧
            (hex2dec c2 ≠ 16 → i + 1 < s.length) := by
          by_cases hlt2 : i + 1 < s.length
          · obtain ⟨c2, hc2⟩ : ∃ c2, s.get? (i + 1) = some c2 := by
              rw [List.get?_eq_getElem?, List.getElem?_eq_getElem hlt2]
              exact ⟨_, rfl⟩
            exact ⟨c2, by rw [get?_append_lt s _ _ hlt2, hc2], fun _ => hlt2⟩
          · have hi1 : i + 1 = s.length := by omega
            refine ⟨0, by rw [hi1]; exact get?_append_length s [] 0, fun h => ?_⟩
            exact absurd hex2dec_nul h
        by_cases hrej : hex2dec c = 16 ∨ hex2dec c2 = 16
        · rw [get_byte_reject _ _ _ _ c c2 _ g1 g2 hrej]
          exact ⟨false, array, 0, by simp [Nat.mod_eq_of_lt hrb], rfl, by omega, rfl⟩
        · have a1 : hex2dec c ≠ 16 := fun h => hrej (Or.inl h)
          have a2 : hex2dec c2 ≠ 16 := fun h => hrej (Or.inr h)
          have hlt2 := hc2 a2
          rw [get_byte_accept _ _ _ _ c c2 _ g1 g2 a1 a2 (by omega)]
          simp only
          obtain ⟨b, out, m, e1, e2, e3, e4⟩ := convert_loop_safe s hs hlen fuel (i + 2) (j + 1)
            ((rb + 1) % 65536) (array.set j (((hex2dec c <<< 4) + hex2dec c2) % 256))
            (by omega) (by omega) (by simp; omega)
            (by simp only [List.length_append, List.length_singleton]; omega)
            (Nat.mod_lt _ (by decide))
          refine ⟨b, out, m + 1, ?_, by simpa using e2, by omega, ?_⟩
          · rw [e1]
            congr 3
            omega
          · rw [show j + (m + 1) = j + 1 + m by omega, e4,
              List.drop_set_of_lt _ _ (by omega : j < j + 1 + m)]
      · rw [if_neg hterm]
        exact ⟨true, array, 0, by simp [Nat.mod_eq_of_lt hrb], rfl, by omega, rfl⟩
    · have hi0 : i = s.length := by omega
      rw [hi0, get?_append_length s [] 0]
      simp only
      exact ⟨true, array, 0, by simp [Nat.mod_eq_of_lt hrb], rfl, by omega, rfl⟩

/-! ## Chunks of 520 characters -/

/-- An odd run of characters free of NUL and newline, followed by a NUL, makes the tokenizer
loop fail whatever the characters are: either some pair is rejected, or the last character is
paired with the NUL. -/
theorem convert_loop_odd_any (post : List Nat) : ∀ (n : Nat) (cs pre : List Nat)
    (fuel j rb : Nat) (array : List Nat),
    cs.length = 2 * n + 1 → (∀ c ∈ cs, c ≠ 0 ∧ c ≠ 10) → pre.length + cs.length < 65536 →
    j + n ≤ array.length →
    ∃ out rb1, convert_loop (pre ++ cs ++ 0 :: post) (fuel + n + 1) pre.length j array rb
      = .ok (false, out, rb1)
  | 0, [], _, _, _, _, _, h, _, _, _ => by simp at h
  | 0, [c], pre, fuel, j, rb, array, _, hc, hidx, _ => by
    have g1 : (pre ++ [c] ++ 0 :: post).get? pre.length = some c := by
      have h := get?_append_add pre ([c] ++ 0 :: post) 0
      simpa using h
    have g2 : (pre ++ [c] ++ 0 :: post).get? (pre.length + 1) = some 0 := by
      have h := get?_append_add pre ([c] ++ 0 :: post) 1
      simpa using h
    simp only [List.length_singleton] at hidx
    rw [convert_loop, g1, Nat.mod_eq_of_lt (by omega : pre.length < 65536),
      get_byte_reject _ _ _ _ c 0 _ g1 g2 (Or.inr hex2dec_nul)]
    simp only [(hc c (by simp)).1, (hc c (by simp)).2, ne_eq, not_false_eq_true, and_self,
      if_true]
    exact ⟨_, _, rfl⟩
  | 0, _ :: _ :: _, _, _, _, _, _, h, _, _, _ => by simp at h
  | n + 1, [], _, _, _, _, _, h, _, _, _ => by simp at h
  | n + 1, [_], _, _, _, _, _, h, _, _, _ => by simp at h
  | n + 1, c1 :: c2 :: cs, pre, fuel, j, rb, array, hlen, hc, hidx, hcap => by
    have hlen2 : cs.length = 2 * n + 1 := by simp at hlen; omega
    simp only [List.length_cons] at hidx
    have g1 : (pre ++ c1 :: c2 :: cs ++ 0 :: post).get? pre.length = some c1 := by
      have h := get?_append_add pre (c1 :: c2 :: cs ++ 0 :: post) 0
      simpa using h
    have g2 : (pre ++ c1 :: c2 :: cs ++ 0 :: post).get? (pre.length + 1) = some c2 := by
      have h := get?_append_add pre (c1 :: c2 :: cs ++ 0 :: post) 1
      simpa using h
    rw [show fuel + (n + 1) + 1 = (fuel + n + 1) + 1 by omega, convert_loop, g1,
      Nat.mod_eq_of_lt (by omega : pre.length < 65536)]
    simp only [(hc c1 (by simp)).1, (hc c1 (by simp)).2, ne_eq, not_false_eq_true, and_self,
      if_true]
    by_cases hrej : hex2dec c1 = 16 ∨ hex2dec c2 = 16
    · rw [get_byte_reject _ _ _ _ c1 c2 _ g1 g2 hrej]
      exact ⟨_, _, rfl⟩
    · rw [get_byte_accept _ _ _ _ c1 c2 _ g1 g2 (fun h => hrej (Or.inl h))
        (fun h => hrej (Or.inr h)) (by omega)]
      simp only
      obtain ⟨out, rb1, ih⟩ := convert_loop_odd_any post n cs (pre ++ [c1, c2]) fuel (j + 1)
        ((rb + 1) % 65536) (array.set j (((hex2dec c1 <<< 4) + hex2dec c2) % 256)) hlen2
        (fun c h => hc c (by simp [h])) (by simp; omega) (by simp; omega)
      have e1 : pre ++ [c1, c2] ++ cs ++ 0 :: post = pre ++ c1 :: c2 :: cs ++ 0 :: post := by
        simp
      rw [e1] at ih
      simp only [List.length_append, List.length_cons, List.length_nil] at ih
      exact ⟨out, rb1, ih⟩

/-- A buffer that starts with 520 characters free of NUL and newline, followed by a NUL (what
`fgets` delivers from a line of 520 characters or more), is rejected by the parser. -/
theorem parse_intel_hex_line_full_chunk (chunk post : List Nat) (heap : Nat → Nat)
    (record : Record) (hlen : chunk.length = 520) (hc : ∀ c ∈ chunk, c ≠ 0 ∧ c ≠ 10) :
    parse_intel_hex_line (chunk ++ 0 :: post) heap record = .ok (false, record) := by
  cases chunk with
  | nil => simp at hlen
  | cons c0 cs =>
    by_cases h0 : c0 = 58
    · subst h0
      have hcs : cs.length = 2 * 259 + 1 := by simp at hlen; omega
      obtain ⟨out, rb1, h⟩ := convert_loop_odd_any post 259 cs [58]
        ((58 :: cs ++ 0 :: post).length + 1 - 260) 0 0 (malloc_bytes 260 heap) hcs
        (fun c h => hc c (by simp [h])) (by simp; omega)
        (by rw [malloc_bytes_length]; omega)
      have hf : (58 :: cs ++ 0 :: post).length + 1 - 260 + 259 + 1
          = (58 :: cs ++ 0 :: post).length + 1 := by
        simp only [List.length_cons, List.length_append]; omega
      rw [hf] at h
      unfold parse_intel_hex_line
      simp only [HEX_LINE_MAX_LENGTH, Nat.reduceDiv]
      have hconv : convert_hex_line_to_bytes (58 :: cs ++ 0 :: post) (malloc_bytes 260 heap) 0
          = .ok (false, out, rb1) := by
        unfold convert_hex_line_to_bytes
        simp only [List.cons_append, List.get?_cons_zero, RECORD_START_CODE, ne_eq,
          not_true_eq_false, if_false]
        simpa using h
      rw [hconv]
    · exact parse_intel_hex_line_marker _ heap record c0 rfl h0

theorem fgets_full_chunk (line chunk rest : List Nat) (hlen : chunk.length = 520)
    (hc : ∀ c ∈ chunk, c ≠ 10) :
    fgets line HEX_LINE_MAX_LENGTH (chunk ++ rest)
      = some (chunk ++ 0 :: line.drop 521, rest) := by
  have hf := fgets_take_full chunk rest hc
  rw [hlen] at hf
  simp only [fgets, HEX_LINE_MAX_LENGTH, Nat.add_one_sub_one, hf]
  cases chunk with
  | nil => simp at hlen
  | cons c cs => simp [hlen]

/-- A line of 520 characters or more whose first 520 characters hold no NUL stops the decode
when it is read: the loop exits with line number `next + 1` and the store as it was. -/
theorem read_loop_full_chunk (heap : Nat → Nat → Nat) (stack : Nat → Record) (fuel k : Nat)
    (chunk rest line : List Nat) (records : List (Option Record)) (len next : Nat)
    (hlen : chunk.length = 520) (hc : ∀ c ∈ chunk, c ≠ 0 ∧ c ≠ 10) :
    read_loop heap stack (fuel + 1) k (chunk ++ rest) line records len next
      = .exited (next + 1) { records := records, size := next, capacity := len } := by
  rw [read_loop, fgets_full_chunk line chunk rest hlen (fun c h => (hc c h).2)]
  simp only
  rw [parse_intel_hex_line_full_chunk chunk _ (heap k) (stack k) hlen hc]

/-- One iteration of the driving loop on a chunk that `fgets` delivers and the parser
accepts, while the store holds fewer than 65529 records: the record goes into slot
`stored.length` and the capacity follows `cap_of`. -/
theorem read_loop_store_step (heap : Nat → Nat → Nat) (stack : Nat → Record) (fuel k : Nat)
    (file line line1 file1 : List Nat) (r : Record) (stored : List Record)
    (hf : fgets line HEX_LINE_MAX_LENGTH file = some (line1, file1))
    (hp : parse_intel_hex_line line1 (heap k) (stack k) = .ok (true, r))
    (hn : stored.length + 1 ≤ 65529) :
    read_loop heap stack (fuel + 1) k file line (store_of stored) (cap_of stored.length)
        stored.length
      = read_loop heap stack fuel (k + 1) file1 line1 (store_of (stored ++ [r]))
          (cap_of (stored.length + 1)) (stored.length + 1) := by
  have hlt : stored.length < (store_of stored).length := by
    rw [store_of_length]; simp only [cap_of]; omega
  have hset : (store_of stored).set stored.length (some r)
      = stored.map some ++ some r
          :: List.replicate (cap_of stored.length - stored.length - 1) none := by
    have h := set_append_replicate (stored.map some)
      (cap_of stored.length - stored.length - 1) (some r)
    rw [List.length_map] at h
    rw [← h, store_of]
    congr 3
    simp only [cap_of]; omega
  rw [read_loop, hf]
  simp only [hp, hlt, if_true]
  rw [Nat.mod_eq_of_lt (by omega : stored.length + 1 < 65536), hset]
  by_cases hfull : stored.length + 1 ≥ cap_of stored.length
  · have hcap : (cap_of stored.length + 10) % 65536 = cap_of (stored.length + 1) := by
      simp only [cap_of] at hfull ⊢; omega
    have hz : cap_of stored.length - stored.length - 1 = 0 := by omega
    rw [if_pos hfull, hcap]
    congr 1
    simp only [realloc, store_of, hz, List.replicate_zero, List.length_append, List.length_map,
      List.length_cons, List.length_nil, List.map_append, List.map_cons, List.map_nil]
    rw [List.take_of_length_le (by simp; simp only [cap_of]; omega)]
  · have hcap : cap_of stored.length = cap_of (stored.length + 1) := by
      simp only [cap_of] at hfull ⊢; omega
    rw [if_neg hfull, ← hcap]
    congr 1
    simp only [store_of, List.length_append, List.length_cons, List.length_nil, List.map_append,
      List.map_cons, List.map_nil, ← hcap]
    rw [show cap_of stored.length - stored.length - 1
        = cap_of stored.length - (stored.length + (0 + 1)) by omega]
    simp

/-- The initial state of `convert_hex_file_to_array` is the empty store of capacity 10. -/
theorem convert_hex_file_to_array_init (file : List Nat) (line0 : Nat → Nat)
    (heap : Nat → Nat → Nat) (stack : Nat → Record) :
    convert_hex_file_to_array file line0 heap stack
      = read_loop heap stack (file.length + 1) 0 file
          ((List.range HEX_LINE_MAX_LENGTH).map (fun k => line0 k % 256)) (store_of [])
          (cap_of 0) 0 := rfl

/-- A line of 523 characters with a NUL after its first 11 characters `:00000001FF`: the first
read of 520 characters is accepted (the tokenizer stops at the NUL) and its record is stored;
the decode exits only on the rest of the line, as line 2. -/
theorem convert_hex_file_to_array_nul_line (line0 : Nat → Nat) (heap : Nat → Nat → Nat) :
    convert_hex_file_to_array (eof_chars ++ 0 :: List.replicate 508 88 ++ [88, 88, 88, 10]) line0
        heap (fun _ => zero_record)
      = .exited 2 { records := store_of [eof_record], size := 1, capacity := cap_of 1 } := by
  have hlen : (eof_chars ++ 0 :: List.replicate 508 88).length = 520 := by
    simp only [eof_chars, List.length_append, List.length_cons, List.length_replicate,
      List.length_nil]
  have hnl : ∀ c ∈ eof_chars ++ 0 :: List.replicate 508 88, c ≠ 10 := by
    intro c hc
    simp only [eof_chars, List.mem_append, List.mem_cons, List.mem_replicate,
      List.not_mem_nil, or_false] at hc
    rcases hc with (rfl | rfl | rfl | rfl | rfl | rfl | rfl | rfl | rfl | rfl | rfl) | rfl
      | ⟨-, rfl⟩
    all_goals decide
  have hfl : (eof_chars ++ 0 :: List.replicate 508 88 ++ [88, 88, 88, 10]).length + 1
      = 523 + 1 + 1 := by
    simp only [eof_chars, List.length_append, List.length_cons, List.length_replicate,
      List.length_nil]
  have hp : ∀ post, parse_intel_hex_line (eof_chars ++ 0 :: post) (heap 0) zero_record
      = .ok (true, eof_record) := fun post =>
    parse_intel_hex_line_record 0 0 1 255 0 [] [48, 48, 48, 48, 48, 48, 48, 49, 70, 70] post
      (heap 0) zero_record (by decide) (by decide) (by decide) (by decide) rfl (by simp)
      (by simp [hex_text, hex_digit_chars]) (Or.inl rfl) (by simp)
  have hstep := read_loop_store_step heap (fun _ => zero_record) (523 + 1) 0
    (eof_chars ++ 0 :: List.replicate 508 88 ++ [88, 88, 88, 10])
    ((List.range HEX_LINE_MAX_LENGTH).map (fun k => line0 k % 256)) _ _ eof_record []
    (fgets_full_chunk _ _ [88, 88, 88, 10] hlen hnl)
    (by rw [List.append_assoc, List.cons_append]; exact hp _) (by decide)
  simp only [List.length_nil, List.nil_append, Nat.zero_add] at hstep
  rw [convert_hex_file_to_array_init, hfl, hstep,
    read_loop_marker heap _ 523 1 88 [88, 88, 10] _ _ _ _ (by decide)]

/-! ## The driving loop on any run of accepted lines -/

/-- While the store stays below 65530 entries, a run of accepted lines is appended in order
and the capacity follows `cap_of`. -/
theorem read_loop_reads_ok (heap : Nat → Nat → Nat) (stack : Nat → Record)
    (file2 line2 : List Nat) : ∀ (rs : List Record) (stored : List Record) (k fuel : Nat)
    (file line : List Nat), reads_ok heap stack k file line rs file2 line2 →
    stored.length + rs.length ≤ 65529 →
    read_loop heap stack (fuel + rs.length) k file line (store_of stored)
        (cap_of stored.length) stored.length
      = read_loop heap stack fuel (k + rs.length) file2 line2 (store_of (stored ++ rs))
          (cap_of (stored.length + rs.length)) (stored.length + rs.length)
  | [], stored, k, fuel, file, line, h, _ => by
    obtain ⟨rfl, rfl⟩ := h
    simp
  | r :: rs, stored, k, fuel, file, line, h, hn => by
    obtain ⟨line1, file1, hf, hp, hrest⟩ := h
    simp only [List.length_cons] at hn
    have ih := read_loop_reads_ok heap stack file2 line2 rs (stored ++ [r]) (k + 1) fuel file1
      line1 hrest (by simp; omega)
    simp only [List.length_append, List.length_singleton, List.append_assoc,
      List.singleton_append] at ih
    rw [show fuel + (r :: rs).length = (fuel + rs.length) + 1 by simp; omega,
      read_loop_store_step heap stack _ k file line line1 file1 r stored hf hp (by omega), ih]
    simp only [List.length_cons]
    rw [show k + 1 + rs.length = k + (rs.length + 1) by omega,
      show stored.length + 1 + rs.length = stored.length + (rs.length + 1) by omega]

/-- Every accepted line consumes at least one character of the stream. -/
theorem reads_ok_length (heap : Nat → Nat → Nat) (stack : Nat → Record)
    (file2 line2 : List Nat) : ∀ (rs : List Record) (k : Nat) (file line : List Nat),
    reads_ok heap stack k file line rs file2 line2 → file2.length + rs.length ≤ file.length
  | [], _, _, _, h => by
    obtain ⟨rfl, -⟩ := h
    simp
  | r :: rs, k, file, line, h => by
    obtain ⟨line1, file1, hf, -, hrest⟩ := h
    have h1 := reads_ok_length heap stack file2 line2 rs (k + 1) file1 line1 hrest
    have h2 := fgets_shortens _ _ _ _ _ hf
    simp only [List.length_cons]
    omega

/-- A run of accepted lines passes through the state reached after any number `j` of them. -/
theorem reads_ok_split (heap : Nat → Nat → Nat) (stack : Nat → Record)
    (file2 line2 : List Nat) : ∀ (j : Nat) (rs : List Record) (k : Nat) (file line : List Nat),
    reads_ok heap stack k file line rs file2 line2 → j ≤ rs.length →
    ∃ fm lm, reads_ok heap stack k file line (rs.take j) fm lm ∧
      reads_ok heap stack (k + j) fm lm (rs.drop j) file2 line2
  | 0, rs, k, file, line, h, _ => ⟨file, line, ⟨rfl, rfl⟩, by simpa using h⟩
  | j + 1, [], _, _, _, _, hj => by simp at hj
  | j + 1, r :: rs, k, file, line, h, hj => by
    obtain ⟨line1, file1, hf, hp, hrest⟩ := h
    obtain ⟨fm, lm, h1, h2⟩ := reads_ok_split heap stack file2 line2 j rs (k + 1) file1 line1
      hrest (by simpa using hj)
    refine ⟨fm, lm, ⟨line1, file1, hf, hp, h1⟩, ?_⟩
    rw [show k + (j + 1) = k + 1 + j by omega]
    exact h2

/-- Lines that are `good_lines` are a run of accepted lines of the stream that holds them. -/
theorem reads_ok_of_good_lines (heap : Nat → Nat → Nat) (stack : Nat → Record)
    (frest : List Nat) : ∀ (ls : List (List Nat × Record)) (k : Nat) (line : List Nat),
    good_lines heap stack k ls →
    ∃ line2, reads_ok heap stack k (lines_text (ls.map Prod.fst) ++ frest) line
      (ls.map Prod.snd) frest line2
  | [], _, line, _ => ⟨line, rfl, rfl⟩
  | (l, r) :: ls, k, line, hg => by
    obtain ⟨⟨hnl, hlen, hparse⟩, hg2⟩ := hg
    obtain ⟨line2, ih⟩ := reads_ok_of_good_lines heap stack frest ls (k + 1)
      (l ++ 10 :: 0 :: line.drop (l.length + 2)) hg2
    refine ⟨line2, _, _, ?_, hparse _, ih⟩
    have e : lines_text (((l, r) :: ls).map Prod.fst) ++ frest
        = l ++ 10 :: (lines_text (ls.map Prod.fst) ++ frest) := by simp [lines_text]
    rw [e]
    exact fgets_line line l _ hnl hlen

/-! ## The first rejected line -/

theorem read_loop_fail_step (heap : Nat → Nat → Nat) (stack : Nat → Record) (fuel k : Nat)
    (file line line1 file1 : List Nat) (rec : Record) (records : List (Option Record))
    (len next : Nat) (hf : fgets line HEX_LINE_MAX_LENGTH file = some (line1, file1))
    (hp : parse_intel_hex_line line1 (heap k) (stack k) = .ok (false, rec)) :
    read_loop heap stack (fuel + 1) k file line records len next
      = .exited (next + 1) { records := records, size := next, capacity := len } := by
  rw [read_loop, hf]
  simp only [hp]

/-- When the first rejected line comes after at most 65529 accepted ones, the decode exits
there: the reported number is the count of lines read so far, the records of all earlier
lines are in the store in order, and what follows in the stream is never looked at. -/
theorem convert_hex_file_to_array_first_failure (heap : Nat → Nat → Nat)
    (stack : Nat → Record) (line0 : Nat → Nat) (file file2 line2 line3 file3 : List Nat)
    (rs : List Record) (rec : Record)
    (hok : reads_ok heap stack 0 file (initial_line line0) rs file2 line2)
    (hf : fgets line2 HEX_LINE_MAX_LENGTH file2 = some (line3, file3))
    (hp : parse_intel_hex_line line3 (heap rs.length) (stack rs.length) = .ok (false, rec))
    (hn : rs.length ≤ 65529) :
    convert_hex_file_to_array file line0 heap stack
      = .exited (rs.length + 1)
          { records := store_of rs, size := rs.length, capacity := cap_of rs.length } := by
  have hfl := reads_ok_length heap stack file2 line2 rs 0 file _ hok
  have h := read_loop_reads_ok heap stack file2 line2 rs [] 0 (file.length - rs.length + 1) file
    (initial_line line0) hok (by simpa using hn)
  simp only [List.length_nil, Nat.zero_add, List.nil_append] at h
  rw [convert_hex_file_to_array_init,
    show file.length + 1 = file.length - rs.length + 1 + rs.length by omega]
  exact h.trans (read_loop_fail_step heap stack _ _ file2 line2 line3 file3 rec _ _ _ hf hp)

/-- A good line met when `next` is not below the size of the array: the record is written
outside the array. -/
theorem read_loop_out_of_bounds (heap : Nat → Nat → Nat) (stack : Nat → Record) (fuel k : Nat)
    (chars frest line : List Nat) (r : Record) (records : List (Option Record))
    (len next : Nat) (hg : good_line heap stack k chars r) (hn : records.length ≤ next) :
    read_loop heap stack (fuel + 1) k (chars ++ 10 :: frest) line records len next
      = .undefined := by
  obtain ⟨hnl, hlen, hparse⟩ := hg
  rw [read_loop, fgets_line line chars frest hnl hlen]
  simp only [hparse]
  rw [if_neg (by omega)]

/-- After 65529 good lines and one more, the loop is in the state `next = 65530`, `len = 4`
with an array of 4 records. -/
theorem read_loop_reach_wrap (heap : Nat → Nat → Nat) (stack : Nat → Record)
    (ls : List (List Nat × Record)) (l frest line : List Nat) (r : Record) (fuel : Nat)
    (hg : good_lines heap stack 0 ls) (hl : good_line heap stack ls.length l r)
    (hn : ls.length = 65529) :
    ∃ line1, read_loop heap stack (fuel + 1 + ls.length) 0
        (lines_text (ls.map Prod.fst) ++ (l ++ 10 :: frest)) line (store_of []) (cap_of 0) 0
      = read_loop heap stack fuel 65530 frest line1 (((ls.map Prod.snd).take 4).map some)
          4 65530 := by
  obtain ⟨line1, h⟩ := read_loop_good_lines heap stack (l ++ 10 :: frest) ls [] 0 (fuel + 1)
    line hg (by simp; omega)
  simp only [List.length_nil, Nat.zero_add, List.nil_append] at h
  have hw := read_loop_wrap heap stack fuel ls.length l frest line1 r (ls.map Prod.snd) hl
    (by rw [List.length_map]; exact hn)
  rw [List.length_map] at hw
  exact ⟨_, h.trans (hw.trans (by rw [hn]))⟩

theorem lines_text_replicate_succ (n : Nat) (l rest : List Nat) :
    lines_text (List.replicate (n + 1) l) ++ rest
      = lines_text (List.replicate n l) ++ (l ++ 10 :: rest) := by
  rw [List.replicate_succ', lines_text_append]
  simp [lines_text]

theorem lines_text_replicate_length (l : List Nat) : ∀ n : Nat,
    (lines_text (List.replicate n l)).length = n * (l.length + 1)
  | 0 => by simp [lines_text]
  | n + 1 => by
    rw [List.replicate_succ, lines_text, List.length_append, List.length_cons,
      lines_text_replicate_length l n]
    rw [Nat.succ_mul]
    omega

/-- The decode of 65530 lines `:00000001FF` followed by more input reaches the state
`next = 65530`, `len = 4` with an array of 4 records. -/
theorem convert_hex_file_to_array_reach_wrap (line0 : Nat → Nat) (heap : Nat → Nat → Nat)
    (frest : List Nat) :
    ∃ line1, convert_hex_file_to_array (lines_text (List.replicate 65530 eof_chars) ++ frest)
        line0 heap (fun _ => zero_record)
      = read_loop heap (fun _ => zero_record) (65530 * 11 + frest.length + 1) 65530 frest line1
          (List.replicate 4 (some eof_record)) 4 65530 := by
  obtain ⟨line1, h⟩ := read_loop_reach_wrap heap (fun _ => zero_record)
    (List.replicate 65529 (eof_chars, eof_record)) eof_chars frest (initial_line line0)
    eof_record (65530 * 11 + frest.length + 1)
    (good_lines_replicate _ _ _ _ (fun k => eof_line_good _ k) 65529 0)
    (eof_line_good _ _) (List.length_replicate _ _)
  rw [List.map_replicate, List.map_replicate, List.take_replicate, List.map_replicate,
    List.length_replicate, ← lines_text_replicate_succ 65529 eof_chars frest] at h
  refine ⟨line1, ?_⟩
  have hlen : eof_chars.length + 1 = 12 := rfl
  rw [convert_hex_file_to_array_init, List.length_append,
    lines_text_replicate_length eof_chars 65530, hlen,
    show 65530 * 12 + frest.length + 1 = 65530 * 11 + frest.length + 1 + 1 + 65529 by omega]
  exact h

/-! ## Claims -/

/-- C1: for every length `L ≤ 255`, 16-bit address `A`, type byte `T`, payload `P` of exactly
`L` bytes and checksum byte `C`, the line made of `:`, the hexadecimal text (digits in either
case) of `L`, `A` (high byte first), `T`, `P`, `C`, with or without a trailing newline, is
accepted by `parse_intel_hex_line`; the record has `len = L`, `addr = A`, `type = T`,
`data[0..L) = P`, `check = C`, and exactly `len` payload bytes were stored (the rest of `data`
is untouched). -/
theorem parse_intel_hex_line_valid_line (L A T C : Nat) (P cs tail stale : List Nat)
    (heap : Nat → Nat) (record : Record)
    (hL : L ≤ 255) (hA : A < 65536) (hT : T ≤ 255) (hC : C ≤ 255)
    (hP : P.length = L) (hPb : ∀ b ∈ P, b ≤ 255)
    (hcs : hex_text cs ([L, A / 256, A % 256, T] ++ P ++ [C]))
    (htail : tail = [] ∨ tail = [10]) (hdata : record.data.length = 255) :
    ∃ r, parse_intel_hex_line (58 :: cs ++ tail ++ 0 :: stale) heap record = .ok (true, r) ∧
      r.len = L ∧ r.addr = A ∧ r.type = T ∧ r.data.take r.len = P ∧
      r.data.drop r.len = record.data.drop L ∧ r.data.length = 255 ∧ r.check = C := by
  have key : ∀ (t : Nat) (post : List Nat), t = 0 ∨ t = 10 →
      parse_intel_hex_line (58 :: cs ++ t :: post) heap record
        = .ok (true, { len := L, addr := A, type := T, data := P ++ record.data.drop L,
                       check := C }) :=
    fun t post ht => parse_intel_hex_line_record L A T C t P cs post heap record hL hA hT hC hP
      hPb hcs ht (by omega)
  have fields : ∀ r : Record,
      r = { len := L, addr := A, type := T, data := P ++ record.data.drop L, check := C } →
      r.len = L ∧ r.addr = A ∧ r.type = T ∧ r.data.take r.len = P ∧
      r.data.drop r.len = record.data.drop L ∧ r.data.length = 255 ∧ r.check = C := by
    rintro r rfl
    refine ⟨rfl, rfl, rfl, ?_, ?_, ?_, rfl⟩
    · simp [← hP]
    · simp only [← hP]
      rw [List.drop_left]
    · simp [hP, hdata]; omega
  rcases htail with rfl | rfl
  · refine ⟨_, ?_, fields _ rfl⟩
    simpa using key 0 stale (Or.inl rfl)
  · refine ⟨_, ?_, fields _ rfl⟩
    simpa using key 10 (0 :: stale) (Or.inr rfl)

/-- C1 at the line `:10246200464C5549442050524F46494C4500464C33` followed by a newline. -/
theorem parse_intel_hex_line_valid_line_witness :
    ∃ r, parse_intel_hex_line (58 :: sample_text ++ [10] ++ 0 :: []) (fun _ => 0) zero_record
        = .ok (true, r) ∧
      r.len = 16 ∧ r.addr = 0x2462 ∧ r.type = 0 ∧
      r.data.take r.len = [0x46, 0x4C, 0x55, 0x49, 0x44, 0x20, 0x50, 0x52, 0x4F, 0x46, 0x49, 0x4C,
        0x45, 0x00, 0x46, 0x4C] ∧
      r.data.drop r.len = zero_record.data.drop 16 ∧ r.data.length = 255 ∧ r.check = 0x33 :=
  parse_intel_hex_line_valid_line 16 0x2462 0 0x33
    [0x46, 0x4C, 0x55, 0x49, 0x44, 0x20, 0x50, 0x52, 0x4F, 0x46, 0x49, 0x4C, 0x45, 0x00, 0x46, 0x4C]
    sample_text [10] [] (fun _ => 0) zero_record (by decide) (by decide) (by decide) (by decide)
    (by decide) (by decide) (by simp [sample_text, hex_text, hex_digit_chars]) (Or.inr rfl)
    (List.length_replicate 255 0)

/-- C2: `validate_record r` is true exactly when `r.check` is the negation modulo 256 of the
sum modulo 256 of `len`, both address bytes, `type` and the first `len` payload bytes; hence
for given `len`, `addr`, `type` and payload exactly one checksum byte is accepted, the one the
formula recomputes, and for the record of `:10246200464C5549442050524F46494C4500464C33` that
byte is `0x33`. -/
theorem validate_record_iff_expected_checksum (r : Record) :
    (validate_record r = true ↔ r.check = expected_checksum r) ∧
    (∀ c, validate_record { r with check := c } = true ↔ c = expected_checksum r) ∧
    expected_checksum r < 256 ∧
    expected_checksum sample_record = 0x33 ∧ validate_record sample_record = true := by
  have h : ∀ r : Record, validate_record r = true ↔ r.check = expected_checksum r := by
    intro r
    rw [validate_record_eq, beq_iff_eq]
    exact eq_comm
  refine ⟨h r, fun c => ?_, Nat.mod_lt _ (by decide), by decide, by decide⟩
  exact h { r with check := c }

/-- C3, counterexample: the line `:05000000FB` tokenizes to 5 bytes, so it has 0 interior
bytes while byte 0 declares 5, and `parse_intel_hex_line` still returns true with
`len = 5`. -/
theorem parse_intel_hex_line_length_mismatch_accepted :
    convert_hex_line_to_bytes [58, 48, 53, 48, 48, 48, 48, 48, 48, 70, 66, 0]
        (malloc_bytes 260 (fun _ => 0)) 0
      = .ok (true, [5, 0, 0, 0, 251] ++ List.replicate 255 0, 5) ∧
    5 - 5 ≠ 5 ∧
    parse_intel_hex_line [58, 48, 53, 48, 48, 48, 48, 48, 48, 70, 66, 0] (fun _ => 0) zero_record
      = .ok (true, { len := 5, addr := 0, type := 0, data := List.replicate 255 0,
                     check := 251 }) := by
  decide!

/-- C3, amended: a line that tokenizes to `n ≥ 5` bytes is accepted whatever length byte 0
declares; the record has `len` = byte 0, `addr` = bytes 1 and 2 (high byte first),
`type` = byte 3, `check` = byte `n - 1`, the `n - 5` interior bytes in `data[0 .. n-5)` and
the rest of `data` untouched. -/
theorem parse_intel_hex_line_no_length_check (line bytes : List Nat) (heap : Nat → Nat)
    (record : Record) (n : Nat)
    (hconv : convert_hex_line_to_bytes line (malloc_bytes (HEX_LINE_MAX_LENGTH / 2) heap) 0
      = .ok (true, bytes, n))
    (hn : 5 ≤ n) (hdata : record.data.length = 255) :
    ∃ r, parse_intel_hex_line line heap record = .ok (true, r) ∧
      r.len = bytes.getD 0 0 ∧
      r.addr = ((bytes.getD 1 0 <<< 8) ||| bytes.getD 2 0) % 65536 ∧
      r.type = bytes.getD 3 0 ∧
      r.check = bytes.getD (n - 1) 0 ∧
      r.data.take (n - 5) = (bytes.drop 4).take (n - 5) ∧
      r.data.drop (n - 5) = record.data.drop (n - 5) ∧
      ((bytes.drop 4).take (n - 5)).length = n - 5 := by
  have hconv1 : convert_hex_line_to_bytes line (malloc_bytes 260 heap) 0
      = .ok (true, bytes, n) := hconv
  obtain ⟨hlen, m, hm, hnm⟩ := convert_hex_line_to_bytes_inv _ _ _ _ _ _ (by decide) hconv1
  rw [malloc_bytes_length] at hlen hm
  have hl : ((bytes.drop 4).take (n - 5)).length = n - 5 := by
    simp only [List.length_take, List.length_drop]; omega
  refine ⟨_, parse_intel_hex_line_of_convert line bytes heap record n hconv1 (by omega)
    (by omega), rfl, rfl, rfl, rfl, ?_, ?_, hl⟩
  · simp only
    rw [List.take_append_of_le_length (by omega), List.take_of_length_le (by omega)]
  · simp only
    rw [List.drop_append_of_le_length (by omega), List.drop_of_length_le (by omega)]
    simp

/-- C3 amended, at the line `:05000000FB`. -/
theorem parse_intel_hex_line_no_length_check_witness :
    ∃ r, parse_intel_hex_line [58, 48, 53, 48, 48, 48, 48, 48, 48, 70, 66, 0] (fun _ => 0)
        zero_record = .ok (true, r) ∧
      r.len = ([5, 0, 0, 0, 251] ++ List.replicate 255 0).getD 0 0 ∧
      r.addr = ((([5, 0, 0, 0, 251] ++ List.replicate 255 0).getD 1 0 <<< 8)
        ||| ([5, 0, 0, 0, 251] ++ List.replicate 255 0).getD 2 0) % 65536 ∧
      r.type = ([5, 0, 0, 0, 251] ++ List.replicate 255 0).getD 3 0 ∧
      r.check = ([5, 0, 0, 0, 251] ++ List.replicate 255 0).getD (5 - 1) 0 ∧
      r.data.take (5 - 5) = (([5, 0, 0, 0, 251] ++ List.replicate 255 0).drop 4).take (5 - 5) ∧
      r.data.drop (5 - 5) = zero_record.data.drop (5 - 5) ∧
      ((([5, 0, 0, 0, 251] ++ List.replicate 255 0).drop 4).take (5 - 5)).length = 5 - 5 :=
  parse_intel_hex_line_no_length_check [58, 48, 53, 48, 48, 48, 48, 48, 48, 70, 66, 0]
    ([5, 0, 0, 0, 251] ++ List.replicate 255 0) (fun _ => 0) zero_record 5 (by decide!)
    (by decide) (List.length_replicate 255 0)

/-- C4, counterexample: the line `:00` begins with the marker and tokenizes to 1 byte, fewer
than 5, and `parse_intel_hex_line` returns true; `addr` and `type` come from the part of the
allocated block that the tokenizer did not write (here the block holds `0, 1, 2, 3, ...`). -/
theorem parse_intel_hex_line_short_line_accepted :
    convert_hex_line_to_bytes [58, 48, 48, 0] (malloc_bytes 260 (fun k => k)) 0
      = .ok (true, (malloc_bytes 260 (fun k => k)).set 0 0, 1) ∧
    1 < 5 ∧
    parse_intel_hex_line [58, 48, 48, 0] (fun k => k) zero_record
      = .ok (true, { len := 0, addr := 258, type := 3, data := List.replicate 255 0,
                     check := 0 }) := by
  decide!

/-- C4, amended: a line that tokenizes to `n` bytes with `1 ≤ n ≤ 4` is not rejected, since
`parse_intel_hex_line` makes no minimum-size check: it returns true with `len` = byte 0 and
`check` = byte `n - 1` of the byte array and leaves `data` untouched. -/
theorem parse_intel_hex_line_no_header_check (line bytes : List Nat) (heap : Nat → Nat)
    (record : Record) (n : Nat)
    (hconv : convert_hex_line_to_bytes line (malloc_bytes (HEX_LINE_MAX_LENGTH / 2) heap) 0
      = .ok (true, bytes, n))
    (hn1 : 1 ≤ n) (hn4 : n < 5) :
    ∃ r, parse_intel_hex_line line heap record = .ok (true, r) ∧
      r.len = bytes.getD 0 0 ∧ r.check = bytes.getD (n - 1) 0 ∧ r.data = record.data := by
  have hconv1 : convert_hex_line_to_bytes line (malloc_bytes 260 heap) 0
      = .ok (true, bytes, n) := hconv
  refine ⟨_, parse_intel_hex_line_of_convert line bytes heap record n hconv1 hn1 (by omega),
    rfl, rfl, ?_⟩
  simp [show n - 5 = 0 by omega]

/-- C4 amended, at the line `:00`. -/
theorem parse_intel_hex_line_no_header_check_witness :
    ∃ r, parse_intel_hex_line [58, 48, 48, 0] (fun k => k) zero_record = .ok (true, r) ∧
      r.len = ((malloc_bytes 260 (fun k => k)).set 0 0).getD 0 0 ∧
      r.check = ((malloc_bytes 260 (fun k => k)).set 0 0).getD (1 - 1) 0 ∧
      r.data = zero_record.data :=
  parse_intel_hex_line_no_header_check [58, 48, 48, 0] ((malloc_bytes 260 (fun k => k)).set 0 0)
    (fun k => k) zero_record 1 (by decide!) (by decide) (by decide)

/-- C5, failing input: in the line `:0000000HEF` the character `H` is not a hexadecimal
digit, yet `hex2dec` returns 17 for it instead of 16, the tokenizer accepts the line and the
parser returns a record of type 17 (whose checksum even validates). -/
theorem non_hex_letter_accepted :
    is_hex_digit 72 = false ∧ hex2dec 72 = 17 ∧
    convert_hex_line_to_bytes [58, 48, 48, 48, 48, 48, 48, 48, 72, 69, 70, 0]
        (malloc_bytes 260 (fun _ => 0)) 0
      = .ok (true, [0, 0, 0, 17, 239] ++ List.replicate 255 0, 5) ∧
    parse_intel_hex_line [58, 48, 48, 48, 48, 48, 48, 48, 72, 69, 70, 0] (fun _ => 0) zero_record
      = .ok (true, { len := 0, addr := 0, type := 17, data := List.replicate 255 0,
                     check := 239 }) ∧
    validate_record { len := 0, addr := 0, type := 17, data := List.replicate 255 0,
                      check := 239 } = true := by
  decide!

/-- C6: when the first character of a line is not `:` (the empty line and `GARBAGE`
included), `convert_hex_line_to_bytes` returns false and leaves the output array and the byte
count as they were, `parse_intel_hex_line` returns false, and `convert_hex_file_to_array`,
reading such a line from the stream, appends nothing: it exits with the records stored so far
unchanged (at any point of the decode, and in particular on the first line). -/
theorem missing_marker_rejected (c0 : Nat) (rest frest array : List Nat) (rb : Nat)
    (heap : Nat → Nat) (record : Record) (heaps : Nat → Nat → Nat) (stack : Nat → Record)
    (line0 : Nat → Nat) (fuel k : Nat) (line : List Nat) (records : List (Option Record))
    (len next : Nat) (hc : c0 ≠ 58) :
    convert_hex_line_to_bytes (c0 :: rest) array rb = .ok (false, array, rb) ∧
    parse_intel_hex_line (c0 :: rest) heap record = .ok (false, record) ∧
    read_loop heaps stack (fuel + 1) k (c0 :: frest) line records len next
      = .exited (next + 1) { records := records, size := next, capacity := len } ∧
    convert_hex_file_to_array (c0 :: frest) line0 heaps stack
      = .exited 1 { records := List.replicate 10 none, size := 0, capacity := 10 } := by
  refine ⟨convert_hex_line_to_bytes_marker _ _ _ c0 rfl hc,
    parse_intel_hex_line_marker _ _ _ c0 rfl hc,
    read_loop_marker heaps stack fuel k c0 frest line records len next hc, ?_⟩
  unfold convert_hex_file_to_array
  exact read_loop_marker heaps stack _ 0 c0 frest _ _ 10 0 hc

/-- C6 at the line `GARBAGE`, met as third line of a file after two stored records. -/
theorem missing_marker_rejected_witness :
    convert_hex_line_to_bytes (71 :: [65, 82, 66, 65, 71, 69, 0]) [1, 2, 3] 0
      = .ok (false, [1, 2, 3], 0) ∧
    parse_intel_hex_line (71 :: [65, 82, 66, 65, 71, 69, 0]) (fun _ => 0) zero_record
      = .ok (false, zero_record) ∧
    read_loop (fun _ _ => 0) (fun _ => zero_record) (8 + 1) 2 (71 :: [65, 82, 66, 65, 71, 69, 10])
        (List.replicate 521 0) ([some sample_record, some sample_record] ++ List.replicate 8 none)
        10 2
      = .exited (2 + 1)
          { records := [some sample_record, some sample_record] ++ List.replicate 8 none,
            size := 2, capacity := 10 } ∧
    convert_hex_file_to_array (71 :: [65, 82, 66, 65, 71, 69, 10]) (fun _ => 0) (fun _ _ => 0)
        (fun _ => zero_record)
      = .exited 1 { records := List.replicate 10 none, size := 0, capacity := 10 } :=
  missing_marker_rejected 71 [65, 82, 66, 65, 71, 69, 0] [65, 82, 66, 65, 71, 69, 10] [1, 2, 3] 0
    (fun _ => 0) zero_record (fun _ _ => 0) (fun _ => zero_record) (fun _ => 0) 8 2
    (List.replicate 521 0) ([some sample_record, some sample_record] ++ List.replicate 8 none)
    10 2 (by decide)

/-- C7: a line made of `:`, an odd number of hexadecimal digits and then a newline or the end
of the string (NUL) is rejected: `convert_hex_line_to_bytes` returns false after decoding the
complete pairs, because the last digit is paired with the terminator, and
`parse_intel_hex_line` returns false.  The line is one that fits the buffers of the program
(at most 521 digits; the complete pairs fit in `array`). -/
theorem odd_digit_count_rejected (ds post array : List Nat) (t rb : Nat) (heap : Nat → Nat)
    (record : Record)
    (hds : ∀ d ∈ ds, is_hex_digit d = true) (hodd : ds.length % 2 = 1) (ht : t = 0 ∨ t = 10)
    (hlen : ds.length ≤ 521) (hcap : ds.length / 2 ≤ array.length) (hrb : rb < 65536) :
    convert_hex_line_to_bytes (58 :: ds ++ t :: post) array rb
      = .ok (false, pair_bytes (ds.take (ds.length - 1)) ++ array.drop (ds.length / 2),
          (rb + ds.length / 2) % 65536) ∧
    parse_intel_hex_line (58 :: ds ++ t :: post) heap record = .ok (false, record) := by
  have hacc : ∀ c ∈ ds, hex2dec c ≠ 16 := fun c hc =>
    Nat.ne_of_lt (hex2dec_of_is_hex_digit c (hds c hc))
  have ht16 : hex2dec t = 16 := by
    rcases ht with rfl | rfl
    · exact hex2dec_nul
    · exact hex2dec_newline
  exact ⟨convert_hex_line_to_bytes_odd ds post array t rb hacc hodd ht16 hlen hcap hrb,
    parse_intel_hex_line_odd ds post t heap record hacc hodd ht16 hlen⟩

/-- C7 at the line `:00000001F` (nine digits) followed by a newline. -/
theorem odd_digit_count_rejected_witness :
    convert_hex_line_to_bytes (58 :: [48, 48, 48, 48, 48, 48, 48, 49, 70] ++ 10 :: [0])
        [9, 9, 9, 9, 9, 9] 0
      = .ok (false, pair_bytes ([48, 48, 48, 48, 48, 48, 48, 49, 70].take
              ([48, 48, 48, 48, 48, 48, 48, 49, 70].length - 1))
            ++ [9, 9, 9, 9, 9, 9].drop ([48, 48, 48, 48, 48, 48, 48, 49, 70].length / 2),
          (0 + [48, 48, 48, 48, 48, 48, 48, 49, 70].length / 2) % 65536) ∧
    parse_intel_hex_line (58 :: [48, 48, 48, 48, 48, 48, 48, 49, 70] ++ 10 :: [0]) (fun _ => 0)
        zero_record = .ok (false, zero_record) :=
  odd_digit_count_rejected [48, 48, 48, 48, 48, 48, 48, 49, 70] [0] [9, 9, 9, 9, 9, 9] 10 0
    (fun _ => 0) zero_record (by decide) (by decide) (Or.inr rfl) (by decide) (by decide)
    (by decide)

/-- C8, failing input: the 521-character line `:FF000000`, 255 times `00`, `01` encodes a
record with 255 payload bytes and a correct checksum, and `parse_intel_hex_line` accepts the
whole line; but `convert_hex_file_to_array` reads only its first 520 characters into the
521-byte buffer, the last digit is paired with the NUL, and the decode exits at line 1 with
nothing stored. -/
theorem max_length_line_not_decoded :
    (max_record_line 49).length = 521 ∧
    parse_intel_hex_line (max_record_line 49 ++ [10, 0]) (fun _ => 0) zero_record
      = .ok (true, { len := 255, addr := 0, type := 0, data := List.replicate 255 0,
                     check := 1 }) ∧
    validate_record { len := 255, addr := 0, type := 0, data := List.replicate 255 0,
                      check := 1 } = true ∧
    convert_hex_file_to_array (max_record_line 49 ++ [10]) (fun _ => 0) (fun _ _ => 0)
        (fun _ => zero_record)
      = .exited 1 { records := List.replicate 10 none, size := 0, capacity := 10 } := by
  refine ⟨?_, parse_intel_hex_line_max_record 49 1 [0] _ (by simp [hex_text, hex_digit_chars])
    (by decide), by decide!, convert_hex_file_to_array_max_record 49 [10] _ _ _ (by decide)⟩
  simp only [max_record_line, List.length_append, List.length_replicate, List.length_cons,
    List.length_nil]

/-- C9, failing input: a file of 65530 lines `:00000001FF`, each of which parses successfully.
After the 65530th append the 16-bit capacity `65530 + 10` wraps to 4 and `realloc` shrinks the
array: the decode returns `size = 65530` with an array of only 4 records, so the records of
lines 5 to 65530 are lost. -/
theorem store_truncated_at_65530_lines :
    (∀ stale, parse_intel_hex_line (eof_chars ++ 10 :: 0 :: stale) (fun _ => 0) zero_record
      = .ok (true, eof_record)) ∧
    convert_hex_file_to_array (lines_text (List.replicate 65530 eof_chars)) (fun _ => 0)
        (fun _ _ => 0) (fun _ => zero_record)
      = .returned { records := List.replicate 4 (some eof_record), size := 65530,
                    capacity := 4 } := by
  refine ⟨(eof_line_good (fun _ _ => 0) 0).2.2, ?_⟩
  have h := convert_hex_file_to_array_wrap (fun _ _ => 0) (fun _ => zero_record) (fun _ => 0)
    (List.replicate 65529 (eof_chars, eof_record)) eof_chars eof_record
    (good_lines_replicate _ _ _ _ (fun k => eof_line_good _ k) 65529 0)
    (eof_line_good _ _) (List.length_replicate _ _)
  rw [List.map_replicate, List.map_replicate, List.take_replicate, List.map_replicate,
    ← List.replicate_succ' 65529 eof_chars] at h
  exact h

/-- C10, failing input: the line `:FF000000`, 255 times `00`, `02` is well formed (255 payload
bytes) with a wrong checksum byte.  `parse_intel_hex_line` accepts it and `validate_record`
is false on its record, but `convert_hex_file_to_array` does not store it: as for every line
of 521 characters, the read is cut after 520 characters and the decode exits at line 1. -/
theorem bad_checksum_max_length_line_not_stored :
    parse_intel_hex_line (max_record_line 50 ++ [10, 0]) (fun _ => 0) zero_record
      = .ok (true, { len := 255, addr := 0, type := 0, data := List.replicate 255 0,
                     check := 2 }) ∧
    validate_record { len := 255, addr := 0, type := 0, data := List.replicate 255 0,
                      check := 2 } = false ∧
    convert_hex_file_to_array (max_record_line 50 ++ [10]) (fun _ => 0) (fun _ _ => 0)
        (fun _ => zero_record)
      = .exited 1 { records := List.replicate 10 none, size := 0, capacity := 10 } :=
  ⟨parse_intel_hex_line_max_record 50 2 [0] _ (by simp [hex_text, hex_digit_chars])
    (by decide), by decide!, convert_hex_file_to_array_max_record 50 [10] _ _ _ (by decide)⟩

/-- C13: for every hexadecimal digit character `c`, `hex2dec c` is its numeric value, which
lies in `0..15`; `0-9` give 0 to 9, `A-F` and `a-f` both give 10 to 15, and the upper-case
and lower-case form of a digit decode to the same value. -/
theorem hex2dec_hex_digit (c : Nat) (h : is_hex_digit c = true) :
    hex2dec c = hex_value c ∧ hex2dec c ≤ 15 ∧
    hex2dec (to_upper c) = hex2dec c ∧ hex2dec (to_lower c) = hex2dec c ∧
    (List.range 10).map (fun k => hex2dec (48 + k)) = [0, 1, 2, 3, 4, 5, 6, 7, 8, 9] ∧
    (List.range 6).map (fun k => hex2dec (65 + k)) = [10, 11, 12, 13, 14, 15] ∧
    (List.range 6).map (fun k => hex2dec (97 + k)) = [10, 11, 12, 13, 14, 15] := by
  have hc : c < 103 := by
    simp only [is_hex_digit, Bool.or_eq_true, Bool.and_eq_true, decide_eq_true_eq] at h
    omega
  have key : ∀ c < 103, is_hex_digit c = true →
      hex2dec c = hex_value c ∧ hex2dec c ≤ 15 ∧
      hex2dec (to_upper c) = hex2dec c ∧ hex2dec (to_lower c) = hex2dec c := by decide
  obtain ⟨h1, h2, h3, h4⟩ := key c hc h
  exact ⟨h1, h2, h3, h4, by decide, by decide, by decide⟩

/-- C13 at the character `b`. -/
theorem hex2dec_hex_digit_witness :
    hex2dec 98 = hex_value 98 ∧ hex2dec 98 ≤ 15 ∧
    hex2dec (to_upper 98) = hex2dec 98 ∧ hex2dec (to_lower 98) = hex2dec 98 ∧
    (List.range 10).map (fun k => hex2dec (48 + k)) = [0, 1, 2, 3, 4, 5, 6, 7, 8, 9] ∧
    (List.range 6).map (fun k => hex2dec (65 + k)) = [10, 11, 12, 13, 14, 15] ∧
    (List.range 6).map (fun k => hex2dec (97 + k)) = [10, 11, 12, 13, 14, 15] :=
  hex2dec_hex_digit 98 (by decide)

/-- C14, failing inputs: among the 256 character codes, the ones that are not hexadecimal
digits and for which `hex2dec` does not return 16 are exactly `H-Z` and `h-z`; for instance
`hex2dec` returns 35 for `Z`. -/
theorem hex2dec_not_16_on_letters :
    is_hex_digit 90 = false ∧ hex2dec 90 = 35 ∧
    (List.range 256).filter (fun c => !is_hex_digit c && hex2dec c != 16)
      = (List.range 19).map (fun k => 72 + k) ++ (List.range 19).map (fun k => 104 + k) := by
  decide

/-- C17: `validate_record r` is true exactly when the sum of all bytes of the record, the
checksum included (`len`, high and low address byte, `type`, `data[0 .. len)`, `check`), is 0
modulo 256; and replacing `data` by an array that agrees with it below index `len` does not
change the result. -/
theorem validate_record_iff_total_zero (r : Record) (data2 : List Nat) (hcheck : r.check < 256)
    (hsame : ∀ i < r.len, data2.getD i 0 = r.data.getD i 0) :
    (validate_record r = true ↔ (record_sum r + r.check) % 256 = 0) ∧
    validate_record { r with data := data2 } = validate_record r := by
  constructor
  · rw [validate_record_eq, beq_iff_eq]
    unfold expected_checksum
    omega
  · have hs : record_sum { r with data := data2 } = record_sum r := by
      unfold record_sum
      simp only
      rw [List.map_congr_left (fun i hi => hsame i (List.mem_range.mp hi))]
    rw [validate_record_eq, validate_record_eq]
    unfold expected_checksum
    rw [hs]

/-- C17 at the sample record, with the unused payload bytes replaced by 7. -/
theorem validate_record_iff_total_zero_witness :
    (validate_record sample_record = true
      ↔ (record_sum sample_record + sample_record.check) % 256 = 0) ∧
    validate_record
        { sample_record with data := (sample_record.data.take 16 ++ List.replicate 239 7) }
      = validate_record sample_record :=
  validate_record_iff_total_zero sample_record (sample_record.data.take 16 ++ List.replicate 239 7)
    (by decide) (by decide)

/-- C18: on a record that validates, changing exactly one checksummed byte to a different
byte value (a payload byte `data[i]` with `i < len`, the high address byte, the low address
byte, the type byte or the checksum byte; `len` unchanged) gives a record on which
`validate_record` returns false. -/
theorem validate_record_detects_single_byte_change (r : Record) (hwf : record_wf r)
    (hv : validate_record r = true) :
    (∀ i v, i < r.len → v < 256 → v ≠ r.data.getD i 0 →
      validate_record { r with data := r.data.set i v } = false) ∧
    (∀ h, h < 256 → h ≠ r.addr / 256 →
      validate_record { r with addr := h * 256 + r.addr % 256 } = false) ∧
    (∀ l, l < 256 → l ≠ r.addr % 256 →
      validate_record { r with addr := r.addr / 256 * 256 + l } = false) ∧
    (∀ t, t < 256 → t ≠ r.type → validate_record { r with type := t } = false) ∧
    (∀ c, c ≠ r.check → validate_record { r with check := c } = false) := by
  obtain ⟨hlen, haddr, htype, hdl, hdb, hcheck⟩ := hwf
  refine ⟨?_, ?_, ?_, ?_, ?_⟩
  · intro i v hi hv256 hne
    have hil : i < r.data.length := by omega
    have hold : r.data.getD i 0 < 256 := by
      rw [List.getD_eq_getElem?_getD, List.getElem?_eq_getElem hil]
      exact hdb _ (List.getElem_mem hil)
    have hs := data_sum_set r.data i v hil r.len
    rw [if_pos hi, if_pos hi] at hs
    refine validate_record_false_of_sum r { r with data := r.data.set i v } hv rfl ?_
    unfold record_sum
    simp only
    omega
  · intro h hh hne
    refine validate_record_false_of_sum r { r with addr := h * 256 + r.addr % 256 } hv rfl ?_
    unfold record_sum
    simp only
    omega
  · intro l hl hne
    refine validate_record_false_of_sum r { r with addr := r.addr / 256 * 256 + l } hv rfl ?_
    unfold record_sum
    simp only
    omega
  · intro t ht hne
    refine validate_record_false_of_sum r { r with type := t } hv rfl ?_
    unfold record_sum
    simp only
    omega
  · intro c hne
    rw [validate_record_eq, beq_iff_eq] at hv
    rw [validate_record_eq, beq_eq_false_iff_ne]
    have he : expected_checksum { r with check := c } = expected_checksum r := rfl
    rw [he, hv]
    exact fun e => hne e.symm

/-- C18 at the sample record. -/
theorem validate_record_detects_single_byte_change_witness :
    (∀ i v, i < sample_record.len → v < 256 → v ≠ sample_record.data.getD i 0 →
      validate_record { sample_record with data := sample_record.data.set i v } = false) ∧
    (∀ h, h < 256 → h ≠ sample_record.addr / 256 →
      validate_record { sample_record with addr := h * 256 + sample_record.addr % 256 }
        = false) ∧
    (∀ l, l < 256 → l ≠ sample_record.addr % 256 →
      validate_record { sample_record with addr := sample_record.addr / 256 * 256 + l }
        = false) ∧
    (∀ t, t < 256 → t ≠ sample_record.type →
      validate_record { sample_record with type := t } = false) ∧
    (∀ c, c ≠ sample_record.check → validate_record { sample_record with check := c } = false) :=
  validate_record_detects_single_byte_change sample_record
    ⟨by decide, by decide, by decide, by decide!, by decide!, by decide⟩ (by decide)

/-- C12: a line made of `:`, `2n` hexadecimal digits and then a newline or the end of the
string (NUL), with `n` bytes fitting the buffer, is tokenized successfully: byte `k` of the
array becomes `16 * value(d(2k+1)) + value(d(2k+2))` for every `k < n`, the rest of the array
is untouched and the byte count grows by exactly `n`; so `parse_intel_hex_line`, which starts
the count at 0 on its 260-byte block, sees `size = n`.  For `n = 0` this is the marker
alone, accepted with zero bytes. -/
theorem convert_hex_line_to_bytes_even_digits (n : Nat) (ds post array : List Nat) (t rb : Nat)
    (heap : Nat → Nat)
    (hds : ∀ d ∈ ds, is_hex_digit d = true) (hlen : ds.length = 2 * n) (ht : t = 0 ∨ t = 10)
    (hn : n ≤ 260) (hcap : n ≤ array.length) (hrb : rb + n < 65536) :
    ∃ out, convert_hex_line_to_bytes (58 :: ds ++ t :: post) array rb = .ok (true, out, rb + n) ∧
      out.length = array.length ∧
      (∀ k < n, out.getD k 0
        = 16 * hex_value (ds.getD (2 * k) 0) + hex_value (ds.getD (2 * k + 1) 0)) ∧
      out.drop n = array.drop n ∧
      ∃ out0, convert_hex_line_to_bytes (58 :: ds ++ t :: post)
        (malloc_bytes (HEX_LINE_MAX_LENGTH / 2) heap) 0 = .ok (true, out0, n) := by
  have hacc : ∀ c ∈ ds, hex2dec c ≠ 16 := fun c hc =>
    Nat.ne_of_lt (hex2dec_of_is_hex_digit c (hds c hc))
  have hpl := pair_bytes_length n ds hlen
  have h1 := convert_hex_line_to_bytes_accept n ds post array t rb hlen hacc ht (by omega) hcap
    (by omega)
  have h2 := convert_hex_line_to_bytes_accept n ds post (malloc_bytes 260 heap) t 0 hlen hacc ht
    (by omega) (by rw [malloc_bytes_length]; exact hn) (by decide)
  rw [Nat.mod_eq_of_lt hrb] at h1
  rw [Nat.zero_add, Nat.mod_eq_of_lt (by omega : n < 65536)] at h2
  refine ⟨_, h1, ?_, ?_, ?_, _, h2⟩
  · simp only [List.length_append, List.length_drop, hpl]; omega
  · intro k hk
    rw [← pair_bytes_getD n ds hlen hds k hk, List.getD_eq_getElem?_getD,
      List.getD_eq_getElem?_getD, List.getElem?_append_left (by omega)]
  · exact List.drop_left' hpl

/-- C12 at the line `:00000001FF` followed by a newline. -/
theorem convert_hex_line_to_bytes_even_digits_witness :
    ∃ out, convert_hex_line_to_bytes (58 :: [48, 48, 48, 48, 48, 48, 48, 49, 70, 70] ++ 10 :: [0])
        [9, 9, 9, 9, 9, 9] 0 = .ok (true, out, 0 + 5) ∧
      out.length = [9, 9, 9, 9, 9, 9].length ∧
      (∀ k < 5, out.getD k 0
        = 16 * hex_value ([48, 48, 48, 48, 48, 48, 48, 49, 70, 70].getD (2 * k) 0)
          + hex_value ([48, 48, 48, 48, 48, 48, 48, 49, 70, 70].getD (2 * k + 1) 0)) ∧
      out.drop 5 = [9, 9, 9, 9, 9, 9].drop 5 ∧
      ∃ out0, convert_hex_line_to_bytes (58 :: [48, 48, 48, 48, 48, 48, 48, 49, 70, 70] ++ 10 :: [0])
        (malloc_bytes (HEX_LINE_MAX_LENGTH / 2) (fun _ => 0)) 0 = .ok (true, out0, 5) :=
  convert_hex_line_to_bytes_even_digits 5 [48, 48, 48, 48, 48, 48, 48, 49, 70, 70] [0]
    [9, 9, 9, 9, 9, 9] 10 0 (fun _ => 0) (by decide) (by decide) (Or.inr rfl) (by decide)
    (by decide) (by decide)

/-- C16: for every text `s` without newline and NUL and every text `t`, the tokenizer gives
the same outcome (success or failure, array, byte count) on the strings `s`, `s` + newline
and `s` + newline + `t`.  It also gives that outcome on a buffer that ends right after the
newline, so it never reads past the terminator.  The array is any array of at most 32767
bytes, such as the 260-byte block of `parse_intel_hex_line`. -/
theorem convert_hex_line_to_bytes_trailing_terminator (s t array : List Nat) (rb : Nat)
    (hs : ∀ c ∈ s, c ≠ 0 ∧ c ≠ 10) (harr : array.length ≤ 32767) :
    convert_hex_line_to_bytes (s ++ [0]) array rb
      = convert_hex_line_to_bytes (s ++ [10, 0]) array rb ∧
    convert_hex_line_to_bytes (s ++ [0]) array rb
      = convert_hex_line_to_bytes (s ++ 10 :: (t ++ [0])) array rb ∧
    convert_hex_line_to_bytes (s ++ [0]) array rb
      = convert_hex_line_to_bytes (s ++ [10]) array rb :=
  ⟨convert_hex_line_to_bytes_agree s [] [0] array 0 10 rb hs (Or.inl rfl) (Or.inr rfl) harr,
    convert_hex_line_to_bytes_agree s [] (t ++ [0]) array 0 10 rb hs (Or.inl rfl) (Or.inr rfl)
      harr,
    convert_hex_line_to_bytes_agree s [] [] array 0 10 rb hs (Or.inl rfl) (Or.inr rfl) harr⟩

/-- C16 at `s = :00000001FF` and `t = :00`. -/
theorem convert_hex_line_to_bytes_trailing_terminator_witness :
    convert_hex_line_to_bytes (eof_chars ++ [0]) [9, 9, 9, 9, 9, 9] 0
      = convert_hex_line_to_bytes (eof_chars ++ [10, 0]) [9, 9, 9, 9, 9, 9] 0 ∧
    convert_hex_line_to_bytes (eof_chars ++ [0]) [9, 9, 9, 9, 9, 9] 0
      = convert_hex_line_to_bytes (eof_chars ++ 10 :: ([58, 48, 48] ++ [0])) [9, 9, 9, 9, 9, 9] 0 ∧
    convert_hex_line_to_bytes (eof_chars ++ [0]) [9, 9, 9, 9, 9, 9] 0
      = convert_hex_line_to_bytes (eof_chars ++ [10]) [9, 9, 9, 9, 9, 9] 0 :=
  convert_hex_line_to_bytes_trailing_terminator eof_chars [58, 48, 48] [9, 9, 9, 9, 9, 9] 0
    (by decide) (by decide)

/-- C19: on a NUL-terminated line of at most 520 characters and the 260-byte array of
`parse_intel_hex_line`, the tokenizer returns without any access outside the line buffer
(which ends with the NUL, at an index of at most 520) or outside the array: it writes only
`array[0 .. m)` for the number `m ≤ 259` of bytes it counts.  In this model a read or write
outside the buffer or the array gives `Exec.undefined`, so an `ok` outcome says that every
index read by `get_byte` and every write index is in bounds. -/
theorem convert_hex_line_to_bytes_in_bounds (s array : List Nat) (rb : Nat)
    (hs : ∀ c ∈ s, c ≠ 0) (hlen : s.length ≤ 520)
    (harr : array.length = HEX_LINE_MAX_LENGTH / 2) (hrb : rb < 65536) :
    ∃ b out m, convert_hex_line_to_bytes (s ++ [0]) array rb = .ok (b, out, (rb + m) % 65536) ∧
      m ≤ 259 ∧ out.length = 260 ∧ out.drop m = array.drop m ∧ (s ++ [0]).length ≤ 521 := by
  have harr1 : array.length = 260 := harr
  have hl : (s ++ [0]).length ≤ 521 := by simp; omega
  unfold convert_hex_line_to_bytes
  cases s with
  | nil =>
    exact ⟨false, array, 0, by simp [RECORD_START_CODE, Nat.mod_eq_of_lt hrb], by omega, harr1,
      rfl, hl⟩
  | cons c s =>
    simp only [List.cons_append, List.get?_cons_zero]
    by_cases hc : c ≠ RECORD_START_CODE
    · rw [if_pos hc]
      exact ⟨false, array, 0, by simp [Nat.mod_eq_of_lt hrb], by omega, harr1, rfl, hl⟩
    · rw [if_neg hc]
      obtain ⟨b, out, m, e1, e2, e3, e4⟩ := convert_loop_safe (c :: s) hs hlen
        ((c :: (s ++ [0])).length + 1) 1 0 rb array rfl (by simp) (by omega)
        (by simp) hrb
      simp only [List.cons_append, Nat.zero_add] at e1 e3 e4
      exact ⟨b, out, m, e1, by omega, by omega, e4, hl⟩

/-- C19 at the line `:00000001FF`. -/
theorem convert_hex_line_to_bytes_in_bounds_witness :
    ∃ b out m, convert_hex_line_to_bytes (eof_chars ++ [0]) (malloc_bytes 260 (fun _ => 0)) 0
        = .ok (b, out, (0 + m) % 65536) ∧
      m ≤ 259 ∧ out.length = 260 ∧ out.drop m = (malloc_bytes 260 (fun _ => 0)).drop m ∧
      (eof_chars ++ [0]).length ≤ 521 :=
  convert_hex_line_to_bytes_in_bounds eof_chars (malloc_bytes 260 (fun _ => 0)) 0 (by decide)
    (by decide) (malloc_bytes_length 260 _) (by decide)

/-- C15, counterexample: the line `:00000001FF`, NUL, 511 times `X` has 523 characters and no
newline inside.  `convert_hex_file_to_array` reads its first 520 characters, the tokenizer
stops at the NUL, the chunk is accepted and a record is stored for it; the decode exits only
on the remaining `XXX`, reported as line 2. -/
theorem long_line_with_nul_stored :
    521 < (eof_chars ++ 0 :: List.replicate 508 88 ++ [88, 88, 88]).length ∧
    (∀ c ∈ eof_chars ++ 0 :: List.replicate 508 88 ++ [88, 88, 88], c ≠ 10) ∧
    convert_hex_file_to_array ((eof_chars ++ 0 :: List.replicate 508 88 ++ [88, 88, 88]) ++ [10])
        (fun _ => 0) (fun _ _ => 0) (fun _ => zero_record)
      = .exited 2 { records := some eof_record :: List.replicate 9 none, size := 1,
                    capacity := 10 } := by
  refine ⟨?_, ?_, ?_⟩
  · simp only [eof_chars, List.length_append, List.length_cons, List.length_replicate,
      List.length_nil]
    decide
  · intro c hc
    simp only [eof_chars, List.mem_append, List.mem_cons, List.mem_replicate,
      List.not_mem_nil, or_false] at hc
    rcases hc with ((rfl | rfl | rfl | rfl | rfl | rfl | rfl | rfl | rfl | rfl | rfl) | rfl
      | ⟨-, rfl⟩) | rfl | rfl | rfl
    all_goals decide
  · rw [List.append_assoc _ [88, 88, 88] [10]]
    exact convert_hex_file_to_array_nul_line (fun _ => 0) (fun _ _ => 0)

/-- C15, amended: an input line longer than 521 characters whose first 520 characters hold no
NUL makes the decode fail when it is read: the first 520 characters are rejected by the
parser, no record is stored for the line, and `convert_hex_file_to_array` exits with the
store as it was (at any point of the decode, and in particular on the first line). -/
theorem long_line_rejected (heap : Nat → Nat → Nat) (stack : Nat → Record) (line0 : Nat → Nat)
    (fuel k : Nat) (chars frest line : List Nat) (records : List (Option Record))
    (len next : Nat)
    (hlong : 521 < chars.length) (hnl : ∀ c ∈ chars, c ≠ 10)
    (hnul : ∀ c ∈ chars.take 520, c ≠ 0) :
    read_loop heap stack (fuel + 1) k (chars ++ frest) line records len next
      = .exited (next + 1) { records := records, size := next, capacity := len } ∧
    convert_hex_file_to_array (chars ++ frest) line0 heap stack
      = .exited 1 { records := List.replicate 10 none, size := 0, capacity := 10 } := by
  have hsplit : chars ++ frest = chars.take 520 ++ (chars.drop 520 ++ frest) := by
    rw [← List.append_assoc, List.take_append_drop]
  have hl : (chars.take 520).length = 520 := by
    simp only [List.length_take]; omega
  have hc : ∀ c ∈ chars.take 520, c ≠ 0 ∧ c ≠ 10 := fun c h =>
    ⟨hnul c h, hnl c (List.mem_of_mem_take h)⟩
  constructor
  · rw [hsplit]
    exact read_loop_full_chunk heap stack fuel k _ _ line records len next hl hc
  · unfold convert_hex_file_to_array
    simp only []
    rw [hsplit]
    exact read_loop_full_chunk heap stack _ 0 _ _ _ _ 10 0 hl hc

/-- C15 amended, at the line `:` followed by 521 times `0`, met after two stored records. -/
theorem long_line_rejected_witness :
    read_loop (fun _ _ => 0) (fun _ => zero_record) (600 + 1) 2
        ((58 :: List.replicate 521 48) ++ [10]) (List.replicate 521 0)
        ([some sample_record, some sample_record] ++ List.replicate 8 none) 10 2
      = .exited (2 + 1)
          { records := [some sample_record, some sample_record] ++ List.replicate 8 none,
            size := 2, capacity := 10 } ∧
    convert_hex_file_to_array ((58 :: List.replicate 521 48) ++ [10]) (fun _ => 0)
        (fun _ _ => 0) (fun _ => zero_record)
      = .exited 1 { records := List.replicate 10 none, size := 0, capacity := 10 } :=
  long_line_rejected (fun _ _ => 0) (fun _ => zero_record) (fun _ => 0) 600 2
    (58 :: List.replicate 521 48) [10] (List.replicate 521 0)
    ([some sample_record, some sample_record] ++ List.replicate 8 none) 10 2
    (by simp only [List.length_cons, List.length_replicate]; decide)
    (by
      intro c hc
      rcases List.mem_cons.mp hc with rfl | hc
      · decide
      · rw [List.eq_of_mem_replicate hc]; decide)
    (by
      intro c hc
      rcases List.mem_cons.mp (List.mem_of_mem_take hc) with rfl | hc
      · decide
      · rw [List.eq_of_mem_replicate hc]; decide)

/-- C20: on every input that consists of `k < 65530` lines, all accepted by the parser, up to
the end of the stream, the loop of `convert_hex_file_to_array` is, at the top of its
iteration number `j` (for every `j ≤ k`), in the state `next = j`,
`len = 10 * (j / 10 + 1)` with the first `j` records stored in an array of `len` slots, so
that `next < len` and slot `records[next]` exists; and the function returns `size = k`,
`capacity = 10 * (k / 10 + 1)`, `size < capacity`. -/
theorem store_capacity_invariant (heap : Nat → Nat → Nat) (stack : Nat → Record)
    (line0 : Nat → Nat) (file : List Nat) (rs : List Record)
    (hok : ∃ line2, reads_ok heap stack 0 file (initial_line line0) rs [] line2)
    (hk : rs.length < 65530) :
    (∀ j, j ≤ rs.length → ∃ fuel1 filej linej,
      convert_hex_file_to_array file line0 heap stack
        = read_loop heap stack (fuel1 + 1) j filej linej (store_of (rs.take j))
            (10 * (j / 10 + 1)) j ∧
      (store_of (rs.take j)).length = 10 * (j / 10 + 1) ∧ j < 10 * (j / 10 + 1) ∧
      10 * (j / 10 + 1) < 65536) ∧
    convert_hex_file_to_array file line0 heap stack
      = .returned { records := store_of rs, size := rs.length,
                    capacity := 10 * (rs.length / 10 + 1) } ∧
    (store_of rs).length = 10 * (rs.length / 10 + 1) ∧
    rs.length < 10 * (rs.length / 10 + 1) := by
  obtain ⟨line2, hok⟩ := hok
  have hfl := reads_ok_length heap stack [] line2 rs 0 file _ hok
  simp only [List.length_nil, Nat.zero_add] at hfl
  have hstate : ∀ j, j ≤ rs.length → ∃ filej linej,
      convert_hex_file_to_array file line0 heap stack
        = read_loop heap stack (file.length - j + 1) j filej linej (store_of (rs.take j))
            (cap_of j) j ∧ reads_ok heap stack j filej linej (rs.drop j) [] line2 := by
    intro j hj
    obtain ⟨fm, lm, h1, h2⟩ := reads_ok_split heap stack [] line2 j rs 0 file _ hok hj
    have hl : (rs.take j).length = j := by simp only [List.length_take]; omega
    have h := read_loop_reads_ok heap stack fm lm (rs.take j) [] 0 (file.length - j + 1) file
      (initial_line line0) h1 (by simp only [List.length_nil, hl]; omega)
    simp only [List.length_nil, Nat.zero_add, List.nil_append, hl] at h
    rw [Nat.zero_add] at h2
    refine ⟨fm, lm, ?_, h2⟩
    rw [convert_hex_file_to_array_init, ← h, show file.length - j + 1 + j = file.length + 1 by
      omega]
    rfl
  refine ⟨fun j hj => ?_, ?_, ?_, ?_⟩
  · obtain ⟨filej, linej, h, -⟩ := hstate j hj
    have hl : (rs.take j).length = j := by simp only [List.length_take]; omega
    refine ⟨file.length - j, filej, linej, h, ?_, by omega, by omega⟩
    rw [store_of_length, hl]; rfl
  · obtain ⟨filek, linek, h, hend⟩ := hstate rs.length (Nat.le_refl _)
    rw [List.drop_length] at hend
    obtain ⟨rfl, rfl⟩ := hend
    rw [h, read_loop_eof, List.take_length]
    rfl
  · rw [store_of_length]; rfl
  · omega

/-- C20 at the file of the two lines `:00000001FF`. -/
theorem store_capacity_invariant_witness :
    (∀ j, j ≤ [eof_record, eof_record].length → ∃ fuel1 filej linej,
      convert_hex_file_to_array (lines_text [eof_chars, eof_chars]) (fun _ => 0) (fun _ _ => 0)
          (fun _ => zero_record)
        = read_loop (fun _ _ => 0) (fun _ => zero_record) (fuel1 + 1) j filej linej
            (store_of ([eof_record, eof_record].take j)) (10 * (j / 10 + 1)) j ∧
      (store_of ([eof_record, eof_record].take j)).length = 10 * (j / 10 + 1) ∧
      j < 10 * (j / 10 + 1) ∧ 10 * (j / 10 + 1) < 65536) ∧
    convert_hex_file_to_array (lines_text [eof_chars, eof_chars]) (fun _ => 0) (fun _ _ => 0)
        (fun _ => zero_record)
      = .returned { records := store_of [eof_record, eof_record],
                    size := [eof_record, eof_record].length,
                    capacity := 10 * ([eof_record, eof_record].length / 10 + 1) } ∧
    (store_of [eof_record, eof_record]).length
      = 10 * ([eof_record, eof_record].length / 10 + 1) ∧
    [eof_record, eof_record].length < 10 * ([eof_record, eof_record].length / 10 + 1) :=
  store_capacity_invariant (fun _ _ => 0) (fun _ => zero_record) (fun _ => 0)
    (lines_text [eof_chars, eof_chars]) [eof_record, eof_record]
    (by
      have h := reads_ok_of_good_lines (fun _ _ => 0) (fun _ => zero_record) []
        [(eof_chars, eof_record), (eof_chars, eof_record)] 0 (initial_line (fun _ => 0))
        ⟨eof_line_good _ 0, eof_line_good _ 1, trivial⟩
      simpa [lines_text] using h)
    (by decide)

/-- C11, failing inputs: 65530 lines `:00000001FF` followed by the line `G`.  The decode
exits at the first rejected line with the right number 65531, but the lines before it are
not all stored: the 16-bit capacity has wrapped to 4 and the array holds 4 records.  With
65531 such lines before the line `G`, the record of line 65531 is written outside that
array, so the decode does not reach the rejected line in a defined way. -/
theorem first_rejected_line_after_65530_lines :
    convert_hex_file_to_array (lines_text (List.replicate 65530 eof_chars) ++ [71, 10])
        (fun _ => 0) (fun _ _ => 0) (fun _ => zero_record)
      = .exited 65531 { records := List.replicate 4 (some eof_record), size := 65530,
                        capacity := 4 } ∧
    convert_hex_file_to_array (lines_text (List.replicate 65531 eof_chars) ++ [71, 10])
        (fun _ => 0) (fun _ _ => 0) (fun _ => zero_record)
      = .undefined := by
  constructor
  · obtain ⟨line1, h⟩ := convert_hex_file_to_array_reach_wrap (fun _ => 0) (fun _ _ => 0)
      [71, 10]
    rw [h]
    exact read_loop_marker _ _ _ 65530 71 [10] line1 _ 4 65530 (by decide)
  · obtain ⟨line1, h⟩ := convert_hex_file_to_array_reach_wrap (fun _ => 0) (fun _ _ => 0)
      (eof_chars ++ 10 :: [71, 10])
    rw [← lines_text_replicate_succ 65530 eof_chars [71, 10]] at h
    rw [h]
    exact read_loop_out_of_bounds _ _ _ 65530 eof_chars [71, 10] line1 eof_record _ 4 65530
      (eof_line_good _ _) (by rw [List.length_replicate]; decide)

end IntelHex
